import Mathlib

/-!
# goki/gti: embed closure (`type.go`) and setter generation (`gtigen/decls.go`)

A shallow embedding of `Type.HasEmbed`, `Type.CompileEmbeds` (src/type.go), of
`SetterFields`, `SetterName`, `DocToComment` and the setter template
(src/gtigen/decls.go), of the generated setters of `Person`
(src/gtigen/testdata/gtigen.go), and of the registry as the specification describes
it, with the properties of the specification stated and proved over them.

Modelling conventions

* A `*Type` that is not nil is an address `Ptr`.  The fields of a `Type` record that
  the code only reads (`Name`, `ID`, `Embeds`, `Instance`) are in `TypeRec`; the one
  field the code writes, `AllEmbeds`, is kept per address in a `Store`.
* `map[uint64]*Type` is a finite partial function `Nat → Option Ptr`; a nil map is
  `none` in the store.  Every map is owned by one record (the code creates maps only
  with `make` and assigns them to the field of the receiver).
* `reflect` and the registry functions `TypeName`, `TypeByName` are not in the
  sources under study; they are parameters, collected in `World`.
* `CompileEmbeds` recurses without a guard, so the embedding carries a bound on the
  recursion depth; `none` means that the bound was exceeded.
-/

namespace Gti

/-- Address of a `Type` record: a `*Type` that is not nil. -/
abbrev Ptr := Nat

/-- Handle of a `reflect.Type`. -/
abbrev RType := Nat

/-- Modelled from the spec: the record `gti.Field` (section 3), declared outside the
sources under study: of its fields, those that the code under study reads. -/
structure Field where
  Name : String
  LocalType : String
  Doc : String
  Tag : String
  deriving DecidableEq, Repr

/-- One entry of `ordmap.Map.Order`. -/
structure KeyVal where
  Key : String
  Val : Field
  deriving DecidableEq, Repr

/-- The type `gti.Fields`, an `ordmap.Map[string, *Field]`: its `Order` slice. -/
structure Fields where
  Order : List KeyVal
  deriving DecidableEq, Repr

/-- The record `gti.Type` without its `AllEmbeds` field.  `Embeds` is a pointer and
may be nil; `Instance` is nil or a live value (a pointer to a struct). -/
structure TypeRec where
  Name : String
  ID : Nat
  Embeds : Option Fields
  Instance : Option Nat
  deriving DecidableEq, Repr

/-- What `CompileEmbeds` reads and does not write: the records behind the addresses,
`reflect.TypeOf(v).Elem()`, `reflect.Type.FieldByName` (the type of the field found),
and the registry functions `TypeName` and `TypeByName`. -/
structure World where
  Types : Ptr → TypeRec
  ElemTypeOf : Nat → RType
  FieldByName : RType → String → Option RType
  TypeName : RType → String
  TypeByName : String → Option Ptr

/-- A `map[uint64]*Type` that is not nil. -/
abbrev EmbedMap := Nat → Option Ptr

/-- The `AllEmbeds` field of every record; `none` is the nil map. -/
abbrev Store := Ptr → Option EmbedMap

/-- The result of `make(map[uint64]*Type)`. -/
def emptyMap : EmbedMap := fun _ => none

/-- The assignment `m[k] = v`. -/
def mapSet (m : EmbedMap) (k : Nat) (v : Ptr) : EmbedMap :=
  fun i => if i = k then some v else m i

/-- The loop `for id, ct := range src { m[id] = ct }`. -/
def mapMerge (m src : EmbedMap) : EmbedMap :=
  fun i => match src i with
    | some ct => some ct
    | none => m i

/-- The store with the `AllEmbeds` field of `tp` set to `m`. -/
def setAllEmbeds (st : Store) (tp : Ptr) (m : EmbedMap) : Store :=
  fun p => if p = tp then some m else st p

/-- All closures absent: the state before any query. -/
def freshStore : Store := fun _ => none

/-- Scan of `strings.LastIndex` for a one-character separator: `i` is the index of
the head of the list, `last` the last index found so far. -/
def lastIndexFrom (sep : Char) : List Char → Nat → Int → Int
  | [], _, last => last
  | c :: cs, i, last => lastIndexFrom sep cs (i + 1) (if c = sep then (i : Int) else last)

/-- The call `strings.LastIndex(s, sep)` for a one-character `sep`: the index of the
last occurrence of `sep` in `s`, or `-1`. -/
def LastIndex (s : String) (sep : Char) : Int :=
  lastIndexFrom sep s.data 0 (-1)

/-- Lines 96 to 99 of type.go: the name of the embed with everything up to the last
dot cut off. -/
def embedFieldName (em : KeyVal) : String :=
  let enm := em.Val.Name
  let idx := LastIndex enm '.'
  if idx ≥ 0 then String.mk (enm.data.drop (idx.toNat + 1)) else enm

/-- The method `Type.ReflectType`: nil without an instance, else the type the
instance points to. -/
def ReflectType (w : World) (tp : Ptr) : Option RType :=
  match (w.Types tp).Instance with
  | none => none
  | some v => some (w.ElemTypeOf v)

/-- Lines 96 to 108 of type.go: the registered type of one embed, or `none` where
the loop body hits a `continue` (no such field, or type not registered). -/
def resolveEmbed (w : World) (rt : RType) (em : KeyVal) : Option Ptr :=
  match w.FieldByName rt (embedFieldName em) with
  | none => none
  | some etft => w.TypeByName (w.TypeName etft)

/-- One pass through the body of the loop of `CompileEmbeds` (lines 96 to 116);
`call` is the recursive call `et.CompileEmbeds()`.  Assigning into a nil map
panics: `none`. -/
def embedStep (call : Store → Ptr → Option Store) (w : World) (tp : Ptr) (rt : RType)
    (st : Store) (em : KeyVal) : Option Store :=
  match resolveEmbed w rt em with
  | none => some st
  | some et =>
    match st tp with
    | none => none
    | some m =>
      match call (setAllEmbeds st tp (mapSet m (w.Types et).ID et)) et with
      | none => none
      | some st2 =>
        match st2 et with
        | none => some st2
        | some cm =>
          match st2 tp with
          | none => none
          | some m2 => some (setAllEmbeds st2 tp (mapMerge m2 cm))

/-- The loop of `CompileEmbeds` over `tp.Embeds.Order`. -/
def embedLoop (call : Store → Ptr → Option Store) (w : World) (tp : Ptr) (rt : RType) :
    Store → List KeyVal → Option Store
  | st, [] => some st
  | st, em :: rest =>
    match embedStep call w tp rt st em with
    | none => none
    | some st2 => embedLoop call w tp rt st2 rest

/-- The method `Type.CompileEmbeds`, with a bound on the recursion depth. -/
def CompileEmbeds (w : World) : Nat → Store → Ptr → Option Store
  | 0, _, _ => none
  | n + 1, st, tp =>
    match (w.Types tp).Embeds with
    | none => some st
    | some embeds =>
      match ReflectType w tp with
      | none => some st
      | some rt =>
        embedLoop (CompileEmbeds w n) w tp rt (setAllEmbeds st tp emptyMap) embeds.Order

/-- The test and lookup at lines 79 to 83 of type.go. -/
def lookupEmbed (w : World) (m : EmbedMap) (tp typ : Ptr) : Bool :=
  if tp = typ then true else (m (w.Types typ).ID).isSome

/-- The method `Type.HasEmbed`; `typ` is not nil.  The result is the store after the
call and the value returned. -/
def HasEmbed (w : World) (n : Nat) (st : Store) (tp typ : Ptr) : Option (Store × Bool) :=
  match st tp with
  | none =>
    match CompileEmbeds w n st tp with
    | none => none
    | some st2 =>
      match st2 tp with
      | none => some (st2, decide (typ = tp))
      | some m => some (st2, lookupEmbed w m tp typ)
  | some m => some (st, lookupEmbed w m tp typ)

/-! ## The embed graph and the closure as a function -/

/-- The registered types that the embeds of `p` resolve to, in the order of
`p.Embeds.Order`; `none` when `CompileEmbeds` returns before its loop (no `Embeds`,
or no instance). -/
def embedTargets (w : World) (p : Ptr) : Option (List Ptr) :=
  match (w.Types p).Embeds with
  | none => none
  | some embeds =>
    match ReflectType w p with
    | none => none
    | some rt => some (embeds.Order.filterMap (resolveEmbed w rt))

/-- Type `p` embeds type `q`: an entry of `p.Embeds` resolves to the registered `q`. -/
def DirectEmbed (w : World) (p q : Ptr) : Prop :=
  ∃ l, embedTargets w p = some l ∧ q ∈ l

/-- Type `q` is reachable from `p` through one or more embed steps. -/
def Reaches (w : World) (p q : Ptr) : Prop :=
  Relation.TransGen (DirectEmbed w) p q

/-- Type `q` is `p` or is reachable from `p`. -/
def ReachesRefl (w : World) (p q : Ptr) : Prop :=
  Relation.ReflTransGen (DirectEmbed w) p q

/-- The embed graph below `a` has no cycle and no infinite chain: among the types
reached from `a`, embedded types have a smaller rank than their embedder. -/
def AcyclicFrom (w : World) (a : Ptr) : Prop :=
  ∃ rank : Ptr → Nat, ∀ p q, ReachesRefl w a p → DirectEmbed w p q → rank q < rank p

/-- What one pass of the loop adds to the map of the embedder: the embedded type
under its ID, then the closure of the embedded type when it has one. -/
def addEmbed (w : World) (acc : EmbedMap) (et : Ptr) (c : Option EmbedMap) : EmbedMap :=
  match c with
  | none => mapSet acc (w.Types et).ID et
  | some cm => mapMerge (mapSet acc (w.Types et).ID et) cm

/-- The loop of `CompileEmbeds` as a function of the closures `f` of the embedded
types. -/
def closureFold (f : Ptr → Option (Option EmbedMap)) (w : World) :
    EmbedMap → List Ptr → Option EmbedMap
  | acc, [] => some acc
  | acc, et :: rest =>
    match f et with
    | none => none
    | some c => closureFold f w (addEmbed w acc et c) rest

/-- The value `CompileEmbeds` leaves in `p.AllEmbeds` when it starts from absent
closures, as a function of the world alone; the outer `none` means that the depth `n`
does not suffice. -/
def closure (w : World) : Nat → Ptr → Option (Option EmbedMap)
  | 0, _ => none
  | n + 1, p =>
    match embedTargets w p with
    | none => some none
    | some l => (closureFold (closure w n) w emptyMap l).map some

/-- The map `v` is the closure of `p`. -/
def IsClosure (w : World) (p : Ptr) (v : Option EmbedMap) : Prop :=
  ∃ k, closure w k p = some v

/-- Every closure present in the store is the closure of its type. -/
def Canon (w : World) (st : Store) : Prop :=
  ∀ q, st q = none ∨ IsClosure w q (st q)

/-- The stores that the code produces: all closures absent at first, then any
number of completed calls of `CompileEmbeds` (the only effect of `HasEmbed` on the
store). -/
inductive Computed (w : World) : Store → Prop
  | fresh : Computed w freshStore
  | compile (st st2 : Store) (n : Nat) (tp : Ptr) :
      Computed w st → CompileEmbeds w n st tp = some st2 → Computed w st2

/-- Types before whose loop `CompileEmbeds` returns have no closure in the store. -/
def LeafClean (w : World) (st : Store) : Prop :=
  ∀ q, embedTargets w q = none → st q = none

/-- The effect on the store of a completed `CompileEmbeds` on `tp`: only types
reached from `tp` change, and each of them holds its closure afterwards. -/
def Frame (w : World) (st st2 : Store) (tp : Ptr) : Prop :=
  (∀ q, st2 q = st q ∨ ReachesRefl w tp q) ∧
  (∀ q, ReachesRefl w tp q → IsClosure w q (st2 q))

/-- At depth `n`, `CompileEmbeds` completes exactly when `closure` does, and then
stores the closure of every type it reaches. -/
def SimAt (w : World) (n : Nat) : Prop :=
  ∀ st tp, LeafClean w st →
    (closure w n tp = none ∧ CompileEmbeds w n st tp = none) ∨
    (∃ st2, CompileEmbeds w n st tp = some st2 ∧ closure w n tp = some (st2 tp) ∧
      Frame w st st2 tp)

/-- The value `HasEmbed` returns on `tp` and `typ` when `v` is the closure of `tp`. -/
def hasEmbedValue (w : World) (v : Option EmbedMap) (tp typ : Ptr) : Bool :=
  match v with
  | none => decide (typ = tp)
  | some m => lookupEmbed w m tp typ

/-! ## Example registries

In every example the instance value `v` points to the struct type `v`, the struct
type `t` belongs to the record at address `t`, and the records are registered under
the names `pkg.A`, `pkg.B`, `pkg.C`, `pkg.D` at the addresses 0 to 3. -/

/-- The entry of an `Embeds` map for an embedded field called `nm`. -/
def exEmbed (nm : String) : KeyVal :=
  ⟨nm, ⟨nm, "", "", ""⟩⟩

/-- A record that is not registered. -/
def exNoType : TypeRec := ⟨"", 0, none, none⟩

/-- The function `TypeName` of the examples. -/
def exTypeName : RType → String
  | 0 => "pkg.A"
  | 1 => "pkg.B"
  | 2 => "pkg.C"
  | 3 => "pkg.D"
  | _ => ""

/-- The function `TypeByName` of the examples. -/
def exTypeByName (nm : String) : Option Ptr :=
  if nm = "pkg.A" then some 0
  else if nm = "pkg.B" then some 1
  else if nm = "pkg.C" then some 2
  else if nm = "pkg.D" then some 3
  else none

/-- The example registry with the given records and struct fields. -/
def exWorld (types : Ptr → TypeRec) (fields : RType → String → Option RType) : World :=
  ⟨types, fun v => v, fields, exTypeName, exTypeByName⟩

/-- A chain: `A` embeds `B`, `B` embeds `C` (declared under a qualified name), and `D`
stands alone. -/
def chainWorld : World :=
  exWorld
    (fun p => match p with
      | 0 => ⟨"pkg.A", 1, some ⟨[exEmbed "B"]⟩, some 0⟩
      | 1 => ⟨"pkg.B", 2, some ⟨[exEmbed "other.C"]⟩, some 1⟩
      | 2 => ⟨"pkg.C", 3, none, some 2⟩
      | 3 => ⟨"pkg.D", 4, none, some 3⟩
      | _ => exNoType)
    (fun t nm => match t with
      | 0 => if nm = "B" then some 1 else none
      | 1 => if nm = "C" then some 2 else none
      | _ => none)

/-- The chain before `C` is registered: the records are those of `chainWorld`, and
`TypeByName` does not find `pkg.C` yet. -/
def chainBeforeWorld : World :=
  { chainWorld with
    TypeByName := fun nm => if nm = "pkg.C" then none else exTypeByName nm }

/-- A cycle of two: `A` embeds `B` and `B` embeds `A`, both registered, both with an
instance. -/
def cycleWorld : World :=
  exWorld
    (fun p => match p with
      | 0 => ⟨"pkg.A", 1, some ⟨[exEmbed "B"]⟩, some 0⟩
      | 1 => ⟨"pkg.B", 2, some ⟨[exEmbed "A"]⟩, some 1⟩
      | _ => exNoType)
    (fun t nm => match t with
      | 0 => if nm = "B" then some 1 else none
      | 1 => if nm = "A" then some 0 else none
      | _ => none)

/-- A cycle of three: `A` embeds `B`, `B` embeds `C`, `C` embeds `A`. -/
def triangleWorld : World :=
  exWorld
    (fun p => match p with
      | 0 => ⟨"pkg.A", 1, some ⟨[exEmbed "B"]⟩, some 0⟩
      | 1 => ⟨"pkg.B", 2, some ⟨[exEmbed "C"]⟩, some 1⟩
      | 2 => ⟨"pkg.C", 3, some ⟨[exEmbed "A"]⟩, some 2⟩
      | _ => exNoType)
    (fun t nm => match t with
      | 0 => if nm = "B" then some 1 else none
      | 1 => if nm = "C" then some 2 else none
      | 2 => if nm = "A" then some 0 else none
      | _ => none)

/-- A type that embeds itself. -/
def selfWorld : World :=
  exWorld
    (fun p => match p with
      | 0 => ⟨"pkg.A", 1, some ⟨[exEmbed "A"]⟩, some 0⟩
      | _ => exNoType)
    (fun t nm => match t with
      | 0 => if nm = "A" then some 0 else none
      | _ => none)

/-- Type `A` embeds `B`; the record at address 4 is not in the registry and carries
the ID of `B`. -/
def sameIDWorld : World :=
  exWorld
    (fun p => match p with
      | 0 => ⟨"pkg.A", 1, some ⟨[exEmbed "B"]⟩, some 0⟩
      | 1 => ⟨"pkg.B", 2, none, some 1⟩
      | 4 => ⟨"pkg.E", 2, none, some 4⟩
      | _ => exNoType)
    (fun t nm => match t with
      | 0 => if nm = "B" then some 1 else none
      | _ => none)

/-- Type `A` declares the embeds `X` (no such field), `B` and `Y` (a field whose type
is not registered); `B` embeds `A`. -/
def skipCycleWorld : World :=
  exWorld
    (fun p => match p with
      | 0 => ⟨"pkg.A", 1, some ⟨[exEmbed "X", exEmbed "B", exEmbed "Y"]⟩, some 0⟩
      | 1 => ⟨"pkg.B", 2, some ⟨[exEmbed "A"]⟩, some 1⟩
      | _ => exNoType)
    (fun t nm => match t with
      | 0 => if nm = "B" then some 1 else if nm = "Y" then some 7 else none
      | 1 => if nm = "A" then some 0 else none
      | _ => none)

/-- Type `A` declares the embeds `X` (no such field), `B` and `Y` (a field whose type
is not registered); `B` embeds `C`. -/
def skipWorld : World :=
  exWorld
    (fun p => match p with
      | 0 => ⟨"pkg.A", 1, some ⟨[exEmbed "X", exEmbed "B", exEmbed "Y"]⟩, some 0⟩
      | 1 => ⟨"pkg.B", 2, some ⟨[exEmbed "C"]⟩, some 1⟩
      | 2 => ⟨"pkg.C", 3, none, some 2⟩
      | _ => exNoType)
    (fun t nm => match t with
      | 0 => if nm = "B" then some 1 else if nm = "Y" then some 7 else none
      | 1 => if nm = "C" then some 2 else none
      | _ => none)

/-- A struct type `A` with an instance and an `Embeds` map that is present and
empty, as for a struct without embedded fields. -/
def emptyEmbedsWorld : World :=
  exWorld
    (fun p => match p with
      | 0 => ⟨"pkg.A", 1, some ⟨[]⟩, some 0⟩
      | 1 => ⟨"pkg.B", 2, none, some 1⟩
      | _ => exNoType)
    (fun _ _ => none)

/-! ## Setter selection (`gtigen/decls.go`)

`Field.Tag` is a `reflect.StructTag`; `Get` and `Lookup` follow the Go standard
library.  Strings are lists of characters: the scans of `Lookup` test single bytes
against ASCII characters, no byte of a multi-byte character is one of them, so the
scans stop at the same places on characters as on bytes.  `strconv.Unquote` is
modelled for values without a backslash; on values with a backslash it is the
parameter `esc`. -/

/-- The loop `for i < len(tag) && tag[i] == ' '` of `Lookup`: the tag without its
leading spaces. -/
def skipSpaces : List Char → List Char
  | [] => []
  | c :: cs => if c = ' ' then skipSpaces cs else c :: cs

/-- The test of the scan to the colon:
`tag[i] > ' ' && tag[i] != ':' && tag[i] != '"' && tag[i] != 0x7f`. -/
def isKeyChar (c : Char) : Bool :=
  decide (c.toNat > 32) && decide (c ≠ ':') && decide (c ≠ '"') && decide (c.toNat ≠ 127)

/-- The scan to the colon: the characters of the key and the rest of the tag. -/
def scanKey : List Char → List Char × List Char
  | [] => ([], [])
  | c :: cs =>
    if isKeyChar c then ((c :: (scanKey cs).1), (scanKey cs).2) else ([], c :: cs)

/-- The scan of the quoted value, from the character after the opening quote: the
characters before the closing quote and the rest of the tag after it, or `none` when
the tag ends first.  A backslash takes the next character with it. -/
def scanQuoted : List Char → Option (List Char × List Char)
  | [] => none
  | c :: cs =>
    if c = '"' then some ([], cs)
    else if c = '\\' then
      match cs with
      | [] => none
      | d :: ds =>
        match scanQuoted ds with
        | none => none
        | some (body, rest) => some (c :: d :: body, rest)
    else
      match scanQuoted cs with
      | none => none
      | some (body, rest) => some (c :: body, rest)

/-- The call `strconv.Unquote` on a double-quoted value with the given characters
between the quotes, none of them an unescaped quote: without a backslash the value
is returned as it is, unless it holds a newline, which is an error; with a backslash
the result is `esc`. -/
def Unquote (esc : List Char → Option (List Char)) (body : List Char) :
    Option (List Char) :=
  if body.contains '\\' then esc body
  else if body.contains '\n' then none
  else some body

/-- One pass of the loop of `reflect.StructTag.Lookup` up to the comparison with
the key: the name, the characters of the quoted value and the rest of the tag, or
`none` where the loop breaks (the tag is used up, or is not of the conventional
form). -/
def scanPair (tag : List Char) : Option (List Char × List Char × List Char) :=
  match skipSpaces tag with
  | [] => none
  | c :: cs =>
    match (scanKey (c :: cs)).2 with
    | c1 :: c2 :: rest =>
      if (scanKey (c :: cs)).1 ≠ [] ∧ c1 = ':' ∧ c2 = '"' then
        match scanQuoted rest with
        | none => none
        | some (body, rest2) => some ((scanKey (c :: cs)).1, body, rest2)
      else none
    | _ => none

/-- The loop of `reflect.StructTag.Lookup`; `n` bounds the number of passes. -/
def lookupLoop (esc : List Char → Option (List Char)) (key : List Char) :
    Nat → List Char → Option (List Char)
  | 0, _ => none
  | n + 1, tag =>
    match scanPair tag with
    | none => none
    | some (name, body, rest) =>
      if key = name then Unquote esc body else lookupLoop esc key n rest

/-- The method `reflect.StructTag.Lookup`: the value under `key`, or `none` when
the second result is false.  Every pass of the loop shortens the tag, so its length
bounds the number of passes. -/
def Lookup (esc : List Char → Option (List Char)) (tag key : String) : Option String :=
  (lookupLoop esc key.data (tag.data.length + 1) tag.data).map String.mk

/-- The method `reflect.StructTag.Get`: the value under `key`, or the empty
string. -/
def Get (esc : List Char → Option (List Char)) (tag key : String) : String :=
  match Lookup esc tag key with
  | some v => v
  | none => ""

/-- Modelled from the spec: the record `gtigen.Type`, declared outside the sources
under study: the two maps that `SetterFields` reads, the declared fields and the
fields of the embedded structs, each a pointer that may be nil. -/
structure GenType where
  Fields : Option Gti.Fields
  EmbeddedFields : Option Gti.Fields
  deriving DecidableEq, Repr

/-- The test `hasSetter` of `SetterFields`. -/
def hasSetter (esc : List Char → Option (List Char)) (f : Field) : Bool :=
  decide (Get esc f.Tag "set" ≠ "-")

/-- The closure `do` of `SetterFields`: the loop over `fields.Order` that appends
to `res`. -/
def setterFieldsDo (esc : List Char → Option (List Char)) :
    List Field → List KeyVal → List Field
  | res, [] => res
  | res, kv :: rest =>
    if hasSetter esc kv.Val then setterFieldsDo esc (res ++ [kv.Val]) rest
    else setterFieldsDo esc res rest

/-- The function `SetterFields`; reading `Order` through a nil map pointer panics:
`none`. -/
def SetterFields (esc : List Char → Option (List Char)) (typ : GenType) :
    Option (List Field) :=
  match typ.Fields with
  | none => none
  | some fields =>
    match typ.EmbeddedFields with
    | none => none
    | some embedded =>
      some (setterFieldsDo esc (setterFieldsDo esc [] fields.Order) embedded.Order)

/-- The values of an ordered map, in insertion order. -/
def fieldVals (m : Fields) : List Field :=
  m.Order.map (fun kv => kv.Val)

/-- An `esc` for the examples, whose tags hold no backslash. -/
def exEsc : List Char → Option (List Char) := fun _ => none

/-- The type `Person` of `gtigen/testdata`: the fields `Name`, `Age` (tagged
`json:"-"`) and `Type`, and the fields `R`, `G`, `B`, `A` of the embedded
`color.RGBA`. -/
def personType : GenType :=
  { Fields := some ⟨[
      ⟨"Name", ⟨"Name", "string", "Name is the name of the person", ""⟩⟩,
      ⟨"Age", ⟨"Age", "int", "Age is the age of the person", "json:\"-\""⟩⟩,
      ⟨"Type", ⟨"Type", "*gti.Type", "Type is the type of the person", ""⟩⟩]⟩
    EmbeddedFields := some ⟨[
      ⟨"R", ⟨"R", "uint8", "", ""⟩⟩,
      ⟨"G", ⟨"G", "uint8", "", ""⟩⟩,
      ⟨"B", ⟨"B", "uint8", "", ""⟩⟩,
      ⟨"A", ⟨"A", "uint8", "", ""⟩⟩]⟩ }

/-- A type with opted-out fields: `Secret` among the declared fields and `Hidden`
among the embedded ones carry `set:"-"`. -/
def optOutType : GenType :=
  { Fields := some ⟨[
      ⟨"Name", ⟨"Name", "string", "", "json:\"name\" set:\"Label\""⟩⟩,
      ⟨"Secret", ⟨"Secret", "string", "", "json:\"-\" set:\"-\""⟩⟩]⟩
    EmbeddedFields := some ⟨[
      ⟨"Hidden", ⟨"Hidden", "int", "", "set:\"-\""⟩⟩,
      ⟨"Shown", ⟨"Shown", "int", "", "view:\"-\""⟩⟩]⟩ }

/-! ## Setter names (`gtigen/decls.go`)

`strcase.ToCamel` belongs to the library `github.com/iancoleman/strcase`, not to the
sources under study: `SetterName` takes it as the parameter `camel`, and `ToCamel`
below follows the library (version 0.3.0), with its table of acronyms as the
parameter `acr`.  The library walks over bytes and writes ASCII letters and digits
only; no byte of a multi-byte character is one, so the walk over characters writes
the same. -/

/-- The function `SetterName`: the value of the `set` key when `Lookup` finds one,
else `strcase.ToCamel(field.Name)`. -/
def SetterName (esc : List Char → Option (List Char)) (camel : String → String)
    (field : Field) : String :=
  match Lookup esc field.Tag "set" with
  | some tag => tag
  | none => camel field.Name

/-- The predicate `unicode.IsSpace`, which `strings.TrimSpace` trims by. -/
def isSpace (c : Char) : Bool :=
  decide (c = '\t') || decide (c = '\n') || decide (c.toNat = 11) || decide (c.toNat = 12)
    || decide (c = '\r') || decide (c = ' ') || decide (c.toNat = 133)
    || decide (c.toNat = 160) || decide (c.toNat = 5760)
    || (decide (8192 ≤ c.toNat) && decide (c.toNat ≤ 8202))
    || decide (c.toNat = 8232) || decide (c.toNat = 8233) || decide (c.toNat = 8239)
    || decide (c.toNat = 8287) || decide (c.toNat = 12288)

/-- The characters without the leading white space. -/
def trimLeft : List Char → List Char
  | [] => []
  | c :: cs => if isSpace c then trimLeft cs else c :: cs

/-- The call `strings.TrimSpace`. -/
def TrimSpace (s : List Char) : List Char :=
  (trimLeft (trimLeft s).reverse).reverse

/-- The test `v >= 'A' && v <= 'Z'`. -/
def isCap (v : Char) : Bool := decide (65 ≤ v.toNat) && decide (v.toNat ≤ 90)

/-- The test `v >= 'a' && v <= 'z'`. -/
def isLow (v : Char) : Bool := decide (97 ≤ v.toNat) && decide (v.toNat ≤ 122)

/-- The test `v >= '0' && v <= '9'`. -/
def isNum (v : Char) : Bool := decide (48 ≤ v.toNat) && decide (v.toNat ≤ 57)

/-- The loop of `toCamelInitCase`: `capNext` and `prevIsCap` are its variables,
`first` says that the index is 0; the result is what the loop writes. -/
def camelLoop (hasAcronym : Bool) : Bool → Bool → Bool → List Char → List Char
  | _, _, _, [] => []
  | capNext, prevIsCap, first, v :: rest =>
    let w : Char :=
      if capNext then (if isLow v then Char.ofNat (v.toNat + 65 - 97) else v)
      else if first then (if isCap v then Char.ofNat (v.toNat + 97 - 65) else v)
      else if prevIsCap && isCap v && !hasAcronym then Char.ofNat (v.toNat + 97 - 65)
      else v
    if isCap v || isLow v then w :: camelLoop hasAcronym false (isCap v) false rest
    else if isNum v then w :: camelLoop hasAcronym true (isCap v) false rest
    else
      camelLoop hasAcronym
        (decide (v = '_') || decide (v = ' ') || decide (v = '-') || decide (v = '.'))
        (isCap v) false rest

/-- The function `strcase.ToCamel`, which is `toCamelInitCase(s, true)`. -/
def ToCamel (acr : String → Option String) (s : String) : String :=
  match TrimSpace s.data with
  | [] => ""
  | c :: cs =>
    match acr (String.mk (c :: cs)) with
    | some a => String.mk (camelLoop true true false true a.data)
    | none => String.mk (camelLoop false true false true (c :: cs))

/-- The table of acronyms of the library as it is at start: `ID` stands for `id`. -/
def exAcr (s : String) : Option String :=
  if s = "ID" then some "id" else none

/-- A type whose field `label` is renamed by its tag and whose field `user_name`
has a name that is not yet an exported identifier. -/
def renameType : GenType :=
  { Fields := some ⟨[
      ⟨"label", ⟨"label", "string", "", "set:\"myTitle\""⟩⟩,
      ⟨"user_name", ⟨"user_name", "string", "", "json:\"user\""⟩⟩]⟩
    EmbeddedFields := some ⟨[]⟩ }

/-! ## Doc comments (`gtigen/decls.go`) -/

/-- The call `strings.ReplaceAll(doc, "\n", "\n// ")`. -/
def replaceNewlines : List Char → List Char
  | [] => []
  | c :: cs =>
    if c = '\n' then '\n' :: '/' :: '/' :: ' ' :: replaceNewlines cs
    else c :: replaceNewlines cs

/-- The function `DocToComment`. -/
def DocToComment (doc : String) : String :=
  String.mk ('/' :: '/' :: ' ' :: replaceNewlines doc.data)

/-- The lines of a text: `strings.Split(s, "\n")`. -/
def splitLines : List Char → List (List Char)
  | [] => [[]]
  | c :: cs =>
    if c = '\n' then [] :: splitLines cs
    else
      match splitLines cs with
      | [] => [[c]]
      | l :: ls => (c :: l) :: ls

/-- The lines put together again: `strings.Join(lines, "\n")`. -/
def joinLines : List (List Char) → List Char
  | [] => []
  | [l] => l
  | l :: l2 :: ls => l ++ '\n' :: joinLines (l2 :: ls)

/-! ## More example registries -/

/-- Type `A` declares the embed `B`, which is registered, but has no instance. -/
def noInstanceWorld : World :=
  exWorld
    (fun p => match p with
      | 0 => ⟨"pkg.A", 1, some ⟨[exEmbed "B"]⟩, none⟩
      | 1 => ⟨"pkg.B", 2, none, some 1⟩
      | _ => exNoType)
    (fun t nm => match t with
      | 0 => if nm = "B" then some 1 else none
      | _ => none)

/-- The registry `w2` is the registry `w` with the entries of `Embeds` permuted, in
any of its types: nothing else differs. -/
def EmbedsPermuted (w w2 : World) : Prop :=
  w2.ElemTypeOf = w.ElemTypeOf ∧ w2.FieldByName = w.FieldByName ∧
  w2.TypeName = w.TypeName ∧ w2.TypeByName = w.TypeByName ∧
  ∀ p, (w2.Types p).Name = (w.Types p).Name ∧ (w2.Types p).ID = (w.Types p).ID ∧
    (w2.Types p).Instance = (w.Types p).Instance ∧
    (((w.Types p).Embeds = none ∧ (w2.Types p).Embeds = none) ∨
      ∃ e e2, (w.Types p).Embeds = some e ∧ (w2.Types p).Embeds = some e2 ∧
        e.Order.Perm e2.Order)

/-- The registered types, those that `TypeByName` returns, have pairwise distinct
IDs. -/
def DistinctIDs (w : World) : Prop :=
  ∀ p q n1 n2, w.TypeByName n1 = some p → w.TypeByName n2 = some q →
    (w.Types p).ID = (w.Types q).ID → p = q

/-- A fork: `A` embeds `B` and `C`, in this order, and `B` embeds `D`. -/
def forkWorld : World :=
  exWorld
    (fun p => match p with
      | 0 => ⟨"pkg.A", 1, some ⟨[exEmbed "B", exEmbed "C"]⟩, some 0⟩
      | 1 => ⟨"pkg.B", 2, some ⟨[exEmbed "D"]⟩, some 1⟩
      | 2 => ⟨"pkg.C", 3, none, some 2⟩
      | 3 => ⟨"pkg.D", 4, none, some 3⟩
      | _ => exNoType)
    (fun t nm => match t with
      | 0 => if nm = "B" then some 1 else if nm = "C" then some 2 else none
      | 1 => if nm = "D" then some 3 else none
      | _ => none)

/-- The fork with the embeds of `A` in the other order: `C`, then `B`. -/
def forkWorldSwapped : World :=
  exWorld
    (fun p => match p with
      | 0 => ⟨"pkg.A", 1, some ⟨[exEmbed "C", exEmbed "B"]⟩, some 0⟩
      | 1 => ⟨"pkg.B", 2, some ⟨[exEmbed "D"]⟩, some 1⟩
      | 2 => ⟨"pkg.C", 3, none, some 2⟩
      | 3 => ⟨"pkg.D", 4, none, some 3⟩
      | _ => exNoType)
    (fun t nm => match t with
      | 0 => if nm = "B" then some 1 else if nm = "C" then some 2 else none
      | 1 => if nm = "D" then some 3 else none
      | _ => none)

/-! ## Generated setters (`gtigen/testdata/gtigen.go`, `SetterMethodsTmpl`) -/

/-- Modelled from the spec: the struct `Person` of the test data, whose declaration
is not among the sources under study: the three declared fields and the four
fields of the embedded `color.RGBA` that `PersonType` registers and the generated
setters assign.  `Typ` is the field `Type`, a `*gti.Type` that may be nil; `R`, `G`,
`B`, `A` are `uint8` values. -/
structure Person where
  Name : String
  Age : Int
  Typ : Option Ptr
  R : Nat
  G : Nat
  B : Nat
  A : Nat
  deriving DecidableEq, Repr

/-- The `Person` values behind the addresses: a `*Person` that is not nil is an
address. -/
abbrev PersonHeap := Ptr → Person

/-- The method `(*Person).SetName`: the heap after the call and the value
returned. -/
def SetName (h : PersonHeap) (t : Ptr) (v : String) : PersonHeap × Ptr :=
  (fun p => if p = t then { h t with Name := v } else h p, t)

/-- The method `(*Person).SetAge`. -/
def SetAge (h : PersonHeap) (t : Ptr) (v : Int) : PersonHeap × Ptr :=
  (fun p => if p = t then { h t with Age := v } else h p, t)

/-- The method `(*Person).SetType`. -/
def SetType (h : PersonHeap) (t : Ptr) (v : Option Ptr) : PersonHeap × Ptr :=
  (fun p => if p = t then { h t with Typ := v } else h p, t)

/-- The method `(*Person).SetR`. -/
def SetR (h : PersonHeap) (t : Ptr) (v : Nat) : PersonHeap × Ptr :=
  (fun p => if p = t then { h t with R := v } else h p, t)

/-- The method `(*Person).SetG`. -/
def SetG (h : PersonHeap) (t : Ptr) (v : Nat) : PersonHeap × Ptr :=
  (fun p => if p = t then { h t with G := v } else h p, t)

/-- The method `(*Person).SetB`. -/
def SetB (h : PersonHeap) (t : Ptr) (v : Nat) : PersonHeap × Ptr :=
  (fun p => if p = t then { h t with B := v } else h p, t)

/-- The method `(*Person).SetA`. -/
def SetA (h : PersonHeap) (t : Ptr) (v : Nat) : PersonHeap × Ptr :=
  (fun p => if p = t then { h t with A := v } else h p, t)

/-- One method as `SetterMethodsTmpl` writes it, without its comment lines:
`func (t *Receiver) Method(v Param) *Receiver { t.Assigned = v; return t }`. -/
structure SetterMethod where
  Receiver : String
  Method : String
  Param : String
  Assigned : String
  deriving DecidableEq, Repr

/-- The body of the `range` of `SetterMethodsTmpl` for one field of the type named
`typName`. -/
def renderSetter (esc : List Char → Option (List Char)) (camel : String → String)
    (typName : String) (f : Field) : SetterMethod :=
  { Receiver := typName
    Method := "Set" ++ SetterName esc camel f
    Param := f.LocalType
    Assigned := f.Name }

/-- The methods that `SetterMethodsTmpl` writes for a type: one for each field of
`SetterFields`, in that order. -/
def SetterMethods (esc : List Char → Option (List Char)) (camel : String → String)
    (typName : String) (typ : GenType) : Option (List SetterMethod) :=
  match SetterFields esc typ with
  | none => none
  | some fields => some (fields.map (renderSetter esc camel typName))

/-! ## The registry

The code of the registry (`AddType`, `TypeByName`, `TypeByValue`) is not among the
sources under study; only its callers are (the generated `gtigen.go`, `TestPerson`).
It is modelled from section 4.1 of the specification. -/

/-- Modelled from the spec: the Global Registry, an append-only store of `Type`
records under their fully-qualified names, with the counter of numeric IDs.  The
records are kept in the order of registration; the handle of a stored record is its
position. -/
structure Registry where
  records : List TypeRec
  nextID : Nat
  deriving DecidableEq, Repr

/-- Modelled from the spec: the error kind `DuplicateRegistration` of section 7. -/
inductive RegError where
  | DuplicateRegistration
  deriving DecidableEq, Repr

/-- Modelled from the spec: the lookup in an index of the registry, the handle of
the first stored record that `p` holds for; `i` is the handle of the head of the
list. -/
def findRecord (p : TypeRec → Bool) : List TypeRec → Nat → Option Ptr
  | [], _ => none
  | r :: rs, i => if p r then some i else findRecord p rs (i + 1)

/-- Modelled from the spec: `TypeByName(fqName)`, the record stored under the name
or not-found. -/
def Registry.TypeByName (reg : Registry) (name : String) : Option Ptr :=
  findRecord (fun r => decide (r.Name = name)) reg.records 0

/-- Modelled from the spec: `TypeByValue(liveValue)`, which resolves through the
concrete runtime type identity of the live value, `typeOf`, and not by name: the
record whose instance has that identity, or not-found. -/
def Registry.TypeByValue (typeOf : Nat → RType) (reg : Registry) (v : Nat) : Option Ptr :=
  findRecord
    (fun r => match r.Instance with
      | some i => decide (typeOf i = typeOf v)
      | none => false)
    reg.records 0

/-- Modelled from the spec: `AddType(t)`, insert-or-fail: when the fully-qualified
name is already there the registration is rejected and the registry stays as it is;
otherwise the record is stored with the next numeric ID and its handle returned. -/
def Registry.AddType (reg : Registry) (t : TypeRec) : Registry × Except RegError Ptr :=
  if reg.records.any (fun r => decide (r.Name = t.Name)) then
    (reg, Except.error RegError.DuplicateRegistration)
  else
    ({ records := reg.records ++ [{ t with ID := reg.nextID }], nextID := reg.nextID + 1 },
      Except.ok reg.records.length)

/-- Modelled from the spec: a run of registrations, rejected ones included. -/
def Registry.addAll (reg : Registry) (ts : List TypeRec) : Registry :=
  ts.foldl (fun r t => (r.AddType t).1) reg

/-- The record that the generated code registers for `Person`, with the instance
value 7. -/
def personRec : TypeRec :=
  ⟨"goki.dev/gti/gtigen/testdata.Person", 0, some ⟨[exEmbed "RGBA"]⟩, some 7⟩

/-- A second record under the name of `Person`. -/
def personRec2 : TypeRec :=
  ⟨"goki.dev/gti/gtigen/testdata.Person", 0, none, some 8⟩

/-- A record under another name whose instance, the live value 8, has the concrete
type of the instance of `personRec`. -/
def aliasRec : TypeRec :=
  ⟨"goki.dev/gti/gtigen/testdata.Alias", 0, none, some 8⟩

/-- The concrete type of the live values of the examples: the values 7 and 8 are of
one type, every other value is of a type of its own. -/
def exTypeOf (v : Nat) : RType :=
  if v = 8 then 7 else v

/-- Another record, registered after `Person`. -/
def otherRec : TypeRec :=
  ⟨"goki.dev/gti/gtigen/testdata.Other", 0, none, some 9⟩

/-! ## The closure function: depth, cycles, termination -/

theorem closureFold_mono {f g : Ptr → Option (Option EmbedMap)} (w : World)
    (hfg : ∀ et c, f et = some c → g et = some c) :
    ∀ (l : List Ptr) (acc r : EmbedMap),
      closureFold f w acc l = some r → closureFold g w acc l = some r := by
  intro l
  induction l with
  | nil => intro acc r h; simpa [closureFold] using h
  | cons et rest ih =>
    intro acc r h
    simp only [closureFold] at h ⊢
    cases hf : f et with
    | none => simp [hf] at h
    | some c =>
      rw [hf] at h
      rw [hfg et c hf]
      exact ih _ _ h

theorem closureFold_some_mem {f : Ptr → Option (Option EmbedMap)} (w : World) :
    ∀ (l : List Ptr) (acc r : EmbedMap),
      closureFold f w acc l = some r → ∀ et ∈ l, ∃ c, f et = some c := by
  intro l
  induction l with
  | nil => intro acc r _ et het; simp at het
  | cons x rest ih =>
    intro acc r h et het
    simp only [closureFold] at h
    cases hf : f x with
    | none => simp [hf] at h
    | some c =>
      rw [hf] at h
      rcases List.mem_cons.mp het with rfl | hmem
      · exact ⟨c, hf⟩
      · exact ih _ _ h et hmem

theorem closureFold_total {f : Ptr → Option (Option EmbedMap)} (w : World) :
    ∀ (l : List Ptr), (∀ et ∈ l, ∃ c, f et = some c) →
      ∀ acc : EmbedMap, ∃ r, closureFold f w acc l = some r := by
  intro l
  induction l with
  | nil => intro _ acc; exact ⟨acc, rfl⟩
  | cons x rest ih =>
    intro h acc
    obtain ⟨c, hc⟩ := h x (List.mem_cons_self _ _)
    obtain ⟨r, hr⟩ := ih (fun et het => h et (List.mem_cons_of_mem _ het)) (addEmbed w acc x c)
    exact ⟨r, by simp only [closureFold, hc]; exact hr⟩

theorem closure_succ (w : World) (n : Nat) (p : Ptr) :
    closure w (n + 1) p =
      match embedTargets w p with
      | none => some none
      | some l => (closureFold (closure w n) w emptyMap l).map some := rfl

theorem closure_mono_succ (w : World) :
    ∀ (n : Nat) (p : Ptr) (v : Option EmbedMap),
      closure w n p = some v → closure w (n + 1) p = some v := by
  intro n
  induction n with
  | zero => intro p v h; simp [closure] at h
  | succ n ih =>
    intro p v h
    rw [closure_succ] at h ⊢
    cases ht : embedTargets w p with
    | none => simpa [ht] using h
    | some l =>
      simp only [ht, Option.map_eq_some'] at h ⊢
      obtain ⟨r, hr, hv⟩ := h
      exact ⟨r, closureFold_mono w ih l _ _ hr, hv⟩

theorem closure_mono_le (w : World) {n m : Nat} (hnm : n ≤ m) (p : Ptr)
    (v : Option EmbedMap) (h : closure w n p = some v) : closure w m p = some v := by
  induction hnm with
  | refl => exact h
  | step _ ih => exact closure_mono_succ w _ p v ih

theorem closure_unique (w : World) {n m : Nat} {p : Ptr} {a b : Option EmbedMap}
    (ha : closure w n p = some a) (hb : closure w m p = some b) : a = b := by
  rcases le_total n m with hnm | hmn
  · have := closure_mono_le w hnm p a ha
    rw [hb] at this
    exact (Option.some.inj this).symm
  · have := closure_mono_le w hmn p b hb
    rw [ha] at this
    exact Option.some.inj this

theorem closure_desc (w : World) {n : Nat} {p q : Ptr} {v : Option EmbedMap}
    (h : closure w (n + 1) p = some v) (hpq : DirectEmbed w p q) :
    ∃ c, closure w n q = some c := by
  obtain ⟨l, hl, hq⟩ := hpq
  rw [closure_succ, hl] at h
  simp only [Option.map_eq_some'] at h
  obtain ⟨r, hr, _⟩ := h
  exact closureFold_some_mem w l _ _ hr q hq

theorem closure_reach (w : World) {n : Nat} {p q : Ptr} {v : Option EmbedMap}
    (h : closure w n p = some v) (hpq : ReachesRefl w p q) :
    ∃ c, closure w n q = some c := by
  induction hpq with
  | refl => exact ⟨v, h⟩
  | tail _ hbc ih =>
    obtain ⟨c, hc⟩ := ih
    cases n with
    | zero => simp [closure] at hc
    | succ n =>
      obtain ⟨c2, hc2⟩ := closure_desc w hc hbc
      exact ⟨c2, closure_mono_succ w n _ c2 hc2⟩

/-- A type whose closure is computed within some depth lies on no embed cycle. -/
theorem closure_nocycle (w : World) :
    ∀ (n : Nat) (p : Ptr) (v : Option EmbedMap),
      closure w n p = some v → ¬ Reaches w p p := by
  intro n
  induction n with
  | zero => intro p v h; simp [closure] at h
  | succ n ih =>
    intro p v h hcyc
    obtain ⟨r, hpr, hrp⟩ := Relation.TransGen.head'_iff.mp hcyc
    obtain ⟨c, hc⟩ := closure_desc w h hpr
    obtain ⟨c2, hc2⟩ := closure_reach w hc hrp
    exact ih p c2 hc2 hcyc

/-- Below a type with no cycle the closure of `p` is computed within depth
`rank p + 1`. -/
theorem closure_of_rank (w : World) (a : Ptr) (rank : Ptr → Nat)
    (hr : ∀ p q, ReachesRefl w a p → DirectEmbed w p q → rank q < rank p) :
    ∀ p, ReachesRefl w a p → ∃ v, closure w (rank p + 1) p = some v := by
  have key : ∀ (k : Nat) (p : Ptr), ReachesRefl w a p → rank p = k →
      ∃ v, closure w (k + 1) p = some v := by
    intro k
    induction k using Nat.strong_induction_on with
    | _ k ih =>
      intro p hap hk
      rw [closure_succ]
      cases ht : embedTargets w p with
      | none => exact ⟨none, rfl⟩
      | some l =>
        have hall : ∀ et ∈ l, ∃ c, closure w k et = some c := by
          intro et het
          have hE : DirectEmbed w p et := ⟨l, ht, het⟩
          have hlt : rank et < k := hk ▸ hr p et hap hE
          obtain ⟨c, hc⟩ := ih (rank et) hlt et (Relation.ReflTransGen.tail hap hE) rfl
          exact ⟨c, closure_mono_le w hlt et c hc⟩
        obtain ⟨r, hr2⟩ := closureFold_total w l hall emptyMap
        exact ⟨some r, by simp [hr2]⟩
  intro p hap
  exact key (rank p) p hap rfl

theorem closure_of_acyclic (w : World) (a : Ptr) (h : AcyclicFrom w a) :
    ∃ n v, closure w n a = some v := by
  obtain ⟨rank, hr⟩ := h
  obtain ⟨v, hv⟩ := closure_of_rank w a rank hr a Relation.ReflTransGen.refl
  exact ⟨rank a + 1, v, hv⟩

/-! ## `CompileEmbeds` computes the closure function -/

theorem setAllEmbeds_same (st : Store) (tp : Ptr) (m : EmbedMap) :
    setAllEmbeds st tp m tp = some m := by
  simp [setAllEmbeds]

theorem setAllEmbeds_ne (st : Store) (tp : Ptr) (m : EmbedMap) {q : Ptr} (h : q ≠ tp) :
    setAllEmbeds st tp m q = st q := by
  simp [setAllEmbeds, h]

theorem isClosure_leaf (w : World) {q : Ptr} {v : Option EmbedMap}
    (hq : embedTargets w q = none) (h : IsClosure w q v) : v = none := by
  obtain ⟨k, hk⟩ := h
  cases k with
  | zero => simp [closure] at hk
  | succ k =>
    rw [closure_succ, hq] at hk
    exact (Option.some.inj hk).symm

theorem embedStep_sim (w : World) (n : Nat) (hJ : SimAt w n) (tp : Ptr) (rt : RType)
    (s : Store) (acc : EmbedMap) (em : KeyVal) (et : Ptr)
    (hres : resolveEmbed w rt em = some et) (hE : DirectEmbed w tp et)
    (hlc : LeafClean w s) (hs : s tp = some acc) :
    (closure w n et = none ∧ embedStep (CompileEmbeds w n) w tp rt s em = none) ∨
    (∃ s3 c, embedStep (CompileEmbeds w n) w tp rt s em = some s3 ∧
      closure w n et = some c ∧
      s3 tp = some (addEmbed w acc et c) ∧ LeafClean w s3 ∧
      (∀ q, q ≠ tp → s3 q = s q ∨ ReachesRefl w et q) ∧
      (∀ q, q ≠ tp → ReachesRefl w et q → IsClosure w q (s3 q))) := by
  have hact : embedTargets w tp ≠ none := by
    obtain ⟨l, hl, _⟩ := hE
    simp [hl]
  have hlc1 : LeafClean w (setAllEmbeds s tp (mapSet acc (w.Types et).ID et)) := by
    intro q hq
    have hne : q ≠ tp := by
      rintro rfl
      exact hact hq
    rw [setAllEmbeds_ne _ _ _ hne]
    exact hlc q hq
  rcases hJ _ et hlc1 with ⟨hcn, hcc⟩ | ⟨s2, hcc, hcl, hf1, hf2⟩
  · left
    refine ⟨hcn, ?_⟩
    simp only [embedStep, hres, hs, hcc]
  · right
    have hnc : ¬ ReachesRefl w et tp := fun h =>
      closure_nocycle w n et _ hcl (Relation.TransGen.tail' h hE)
    have h2tp : s2 tp = some (mapSet acc (w.Types et).ID et) := by
      rcases hf1 tp with h | h
      · rw [h, setAllEmbeds_same]
      · exact absurd h hnc
    have h2q : ∀ q, q ≠ tp → s2 q = s q ∨ ReachesRefl w et q := by
      intro q hq
      rcases hf1 q with h | h
      · left
        rw [h, setAllEmbeds_ne _ _ _ hq]
      · exact Or.inr h
    have hlc2 : ∀ q, q ≠ tp → embedTargets w q = none → s2 q = none := by
      intro q hq hleaf
      rcases h2q q hq with h | h
      · rw [h]
        exact hlc q hleaf
      · exact isClosure_leaf w hleaf (hf2 q h)
    cases h2e : s2 et with
    | none =>
      refine ⟨s2, none, ?_, by rw [hcl, h2e], ?_, ?_, h2q, ?_⟩
      · simp only [embedStep, hres, hs, hcc, h2e]
      · rw [h2tp]
        rfl
      · intro q hleaf
        have hne : q ≠ tp := by
          rintro rfl
          exact hact hleaf
        exact hlc2 q hne hleaf
      · intro q _ hr
        exact hf2 q hr
    | some cm =>
      refine ⟨setAllEmbeds s2 tp (mapMerge (mapSet acc (w.Types et).ID et) cm), some cm, ?_,
        by rw [hcl, h2e], ?_, ?_, ?_, ?_⟩
      · simp only [embedStep, hres, hs, hcc, h2e, h2tp]
      · rw [setAllEmbeds_same]
        rfl
      · intro q hleaf
        have hne : q ≠ tp := by
          rintro rfl
          exact hact hleaf
        rw [setAllEmbeds_ne _ _ _ hne]
        exact hlc2 q hne hleaf
      · intro q hq
        rw [setAllEmbeds_ne _ _ _ hq]
        exact h2q q hq
      · intro q hq hr
        rw [setAllEmbeds_ne _ _ _ hq]
        exact hf2 q hr

theorem embedLoop_sim (w : World) (n : Nat) (hJ : SimAt w n) (tp : Ptr) (rt : RType) :
    ∀ (l : List KeyVal) (s : Store) (acc : EmbedMap),
      (∀ em ∈ l, ∀ et, resolveEmbed w rt em = some et → DirectEmbed w tp et) →
      LeafClean w s → s tp = some acc →
      (closureFold (closure w n) w acc (l.filterMap (resolveEmbed w rt)) = none ∧
        embedLoop (CompileEmbeds w n) w tp rt s l = none) ∨
      (∃ s2 acc2, embedLoop (CompileEmbeds w n) w tp rt s l = some s2 ∧
        closureFold (closure w n) w acc (l.filterMap (resolveEmbed w rt)) = some acc2 ∧
        s2 tp = some acc2 ∧ LeafClean w s2 ∧
        (∀ q, q ≠ tp → s2 q = s q ∨
          ∃ et ∈ l.filterMap (resolveEmbed w rt), ReachesRefl w et q) ∧
        (∀ q, q ≠ tp → (∃ et ∈ l.filterMap (resolveEmbed w rt), ReachesRefl w et q) →
          IsClosure w q (s2 q))) := by
  intro l
  induction l with
  | nil =>
    intro s acc _ hlc hs
    right
    refine ⟨s, acc, rfl, rfl, hs, hlc, fun q _ => Or.inl rfl, ?_⟩
    rintro q _ ⟨et, het, _⟩
    simp at het
  | cons em rest ih =>
    intro s acc hedge hlc hs
    have hrest : ∀ em2 ∈ rest, ∀ et, resolveEmbed w rt em2 = some et → DirectEmbed w tp et :=
      fun em2 h2 => hedge em2 (List.mem_cons_of_mem _ h2)
    cases hres : resolveEmbed w rt em with
    | none =>
      have hstep : embedStep (CompileEmbeds w n) w tp rt s em = some s := by
        simp only [embedStep, hres]
      have hfm : (em :: rest).filterMap (resolveEmbed w rt)
          = rest.filterMap (resolveEmbed w rt) := by
        simp [List.filterMap_cons, hres]
      rw [hfm]
      simp only [embedLoop, hstep]
      exact ih s acc hrest hlc hs
    | some et =>
      have hE : DirectEmbed w tp et := hedge em (List.mem_cons_self _ _) et hres
      have hfm : (em :: rest).filterMap (resolveEmbed w rt)
          = et :: rest.filterMap (resolveEmbed w rt) := by
        simp [List.filterMap_cons, hres]
      rw [hfm]
      rcases embedStep_sim w n hJ tp rt s acc em et hres hE hlc hs with
        ⟨hcn, hsn⟩ | ⟨s3, c, hs3, hc, h3tp, hlc3, h3q, h3c⟩
      · left
        refine ⟨?_, ?_⟩
        · simp only [closureFold, hcn]
        · simp only [embedLoop, hsn]
      · rcases ih s3 (addEmbed w acc et c) hrest hlc3 h3tp with
          ⟨hfn, hln⟩ | ⟨s4, acc4, hl4, hf4, h4tp, hlc4, h4q, h4c⟩
        · left
          refine ⟨?_, ?_⟩
          · simp only [closureFold, hc]
            exact hfn
          · simp only [embedLoop, hs3]
            exact hln
        · right
          refine ⟨s4, acc4, ?_, ?_, h4tp, hlc4, ?_, ?_⟩
          · simp only [embedLoop, hs3]
            exact hl4
          · simp only [closureFold, hc]
            exact hf4
          · intro q hq
            rcases h4q q hq with h | ⟨et2, het2, hr2⟩
            · rcases h3q q hq with h3 | h3
              · exact Or.inl (h.trans h3)
              · exact Or.inr ⟨et, List.mem_cons_self _ _, h3⟩
            · exact Or.inr ⟨et2, List.mem_cons_of_mem _ het2, hr2⟩
          · rintro q hq ⟨et2, het2, hr2⟩
            rcases h4q q hq with h | hin
            · rcases List.mem_cons.mp het2 with rfl | hmem
              · rw [h]
                exact h3c q hq hr2
              · exact h4c q hq ⟨et2, hmem, hr2⟩
            · exact h4c q hq hin

/-- The code and the closure function agree at every depth. -/
theorem simAt_all (w : World) : ∀ n, SimAt w n := by
  intro n
  induction n with
  | zero =>
    intro st tp _
    exact Or.inl ⟨rfl, rfl⟩
  | succ n ih =>
    intro st tp hlc
    cases ht : embedTargets w tp with
    | none =>
      right
      have hce : CompileEmbeds w (n + 1) st tp = some st := by
        unfold embedTargets at ht
        unfold CompileEmbeds
        cases he : (w.Types tp).Embeds with
        | none => rfl
        | some embeds =>
          cases hrt : ReflectType w tp with
          | none => rfl
          | some rt => simp [he, hrt] at ht
      refine ⟨st, hce, ?_, fun q => Or.inl rfl, ?_⟩
      · rw [closure_succ, ht, hlc tp ht]
      · intro q hq
        have hqe : q = tp := by
          induction hq with
          | refl => rfl
          | tail _ hbc ih2 =>
            subst ih2
            obtain ⟨l, hl, _⟩ := hbc
            rw [ht] at hl
            cases hl
        subst hqe
        exact ⟨1, by rw [closure_succ, ht, hlc q ht]⟩
    | some l =>
      have hact : embedTargets w tp ≠ none := by simp [ht]
      obtain ⟨embeds, rt, he, hrt, hl⟩ :
          ∃ embeds rt, (w.Types tp).Embeds = some embeds ∧ ReflectType w tp = some rt ∧
            l = embeds.Order.filterMap (resolveEmbed w rt) := by
        unfold embedTargets at ht
        cases he : (w.Types tp).Embeds with
        | none => simp [he] at ht
        | some embeds =>
          cases hrt : ReflectType w tp with
          | none => simp [he, hrt] at ht
          | some rt =>
            simp only [he, hrt] at ht
            exact ⟨embeds, rt, rfl, rfl, (Option.some.inj ht).symm⟩
      have hce : CompileEmbeds w (n + 1) st tp
          = embedLoop (CompileEmbeds w n) w tp rt (setAllEmbeds st tp emptyMap)
              embeds.Order := by
        simp only [CompileEmbeds, he, hrt]
      have hedge : ∀ em ∈ embeds.Order, ∀ et, resolveEmbed w rt em = some et →
          DirectEmbed w tp et := by
        intro em hem et hres
        refine ⟨l, ht, ?_⟩
        rw [hl]
        exact List.mem_filterMap.mpr ⟨em, hem, hres⟩
      have hlc0 : LeafClean w (setAllEmbeds st tp emptyMap) := by
        intro q hq
        have hne : q ≠ tp := by
          rintro rfl
          exact hact hq
        rw [setAllEmbeds_ne _ _ _ hne]
        exact hlc q hq
      rcases embedLoop_sim w n ih tp rt embeds.Order _ emptyMap hedge hlc0
          (setAllEmbeds_same _ _ _) with
        ⟨hfn, hln⟩ | ⟨s2, acc2, hl2, hf2, h2tp, _, h2q, h2c⟩
      · left
        refine ⟨?_, hce.trans hln⟩
        rw [closure_succ, ht, hl]
        simp only [hfn, Option.map_none']
      · right
        have hcl : closure w (n + 1) tp = some (s2 tp) := by
          rw [closure_succ, ht, hl]
          simp only [hf2, h2tp, Option.map_some']
        refine ⟨s2, hce.trans hl2, hcl, ?_, ?_⟩
        · intro q
          by_cases hq : q = tp
          · subst hq
            exact Or.inr Relation.ReflTransGen.refl
          · rcases h2q q hq with h | ⟨et, het, hr⟩
            · left
              rw [h, setAllEmbeds_ne _ _ _ hq]
            · right
              exact Relation.ReflTransGen.head ⟨l, ht, hl ▸ het⟩ hr
        · intro q hr
          by_cases hq : q = tp
          · subst hq
            exact ⟨n + 1, hcl⟩
          · rcases Relation.ReflTransGen.cases_head hr with h | ⟨et, hE, hr2⟩
            · exact absurd h.symm hq
            · obtain ⟨l2, hl2e, het⟩ := hE
              rw [ht] at hl2e
              cases hl2e
              exact h2c q hq ⟨et, hl ▸ het, hr2⟩

/-! ## Depth monotonicity of the code -/

theorem embedStep_mono {f g : Store → Ptr → Option Store} (w : World) (tp : Ptr)
    (rt : RType) (hfg : ∀ s p r, f s p = some r → g s p = some r)
    (s : Store) (em : KeyVal) (r : Store)
    (h : embedStep f w tp rt s em = some r) : embedStep g w tp rt s em = some r := by
  unfold embedStep at h ⊢
  cases hres : resolveEmbed w rt em with
  | none => simpa [hres] using h
  | some et =>
    simp only [hres] at h ⊢
    cases hs : s tp with
    | none => simp [hs] at h
    | some m =>
      simp only [hs] at h ⊢
      cases hc : f (setAllEmbeds s tp (mapSet m (w.Types et).ID et)) et with
      | none => simp [hc] at h
      | some s2 =>
        rw [hfg _ _ _ hc]
        simpa [hc] using h

theorem embedLoop_mono {f g : Store → Ptr → Option Store} (w : World) (tp : Ptr)
    (rt : RType) (hfg : ∀ s p r, f s p = some r → g s p = some r) :
    ∀ (l : List KeyVal) (s r : Store),
      embedLoop f w tp rt s l = some r → embedLoop g w tp rt s l = some r := by
  intro l
  induction l with
  | nil => intro s r h; simpa [embedLoop] using h
  | cons em rest ih =>
    intro s r h
    simp only [embedLoop] at h ⊢
    cases hst : embedStep f w tp rt s em with
    | none => simp [hst] at h
    | some s2 =>
      rw [embedStep_mono w tp rt hfg s em s2 hst]
      simp only [hst] at h
      exact ih s2 r h

theorem compileEmbeds_mono_succ (w : World) :
    ∀ (n : Nat) (st : Store) (tp : Ptr) (r : Store),
      CompileEmbeds w n st tp = some r → CompileEmbeds w (n + 1) st tp = some r := by
  intro n
  induction n with
  | zero => intro st tp r h; simp [CompileEmbeds] at h
  | succ n ih =>
    intro st tp r h
    unfold CompileEmbeds at h ⊢
    cases he : (w.Types tp).Embeds with
    | none => simpa [he] using h
    | some embeds =>
      cases hrt : ReflectType w tp with
      | none => simpa [he, hrt] using h
      | some rt =>
        simp only [he, hrt] at h ⊢
        exact embedLoop_mono w tp rt ih _ _ _ h

theorem compileEmbeds_mono_le (w : World) {n m : Nat} (hnm : n ≤ m) (st : Store)
    (tp : Ptr) (r : Store) (h : CompileEmbeds w n st tp = some r) :
    CompileEmbeds w m st tp = some r := by
  induction hnm with
  | refl => exact h
  | step _ ih => exact compileEmbeds_mono_succ w _ st tp r ih

theorem hasEmbed_mono_le (w : World) {n m : Nat} (hnm : n ≤ m) (st : Store)
    (tp typ : Ptr) (r : Store × Bool) (h : HasEmbed w n st tp typ = some r) :
    HasEmbed w m st tp typ = some r := by
  unfold HasEmbed at h ⊢
  cases hs : st tp with
  | some cm => simpa [hs] using h
  | none =>
    simp only [hs] at h ⊢
    cases hc : CompileEmbeds w n st tp with
    | none => simp [hc] at h
    | some s2 =>
      rw [compileEmbeds_mono_le w hnm st tp s2 hc]
      simpa [hc] using h

/-! ## The stores the code produces -/

theorem canon_leafClean (w : World) {st : Store} (h : Canon w st) : LeafClean w st := by
  intro q hq
  rcases h q with h1 | h1
  · exact h1
  · exact isClosure_leaf w hq h1

theorem canon_fresh (w : World) : Canon w freshStore := fun _ => Or.inl rfl

/-- A completed `CompileEmbeds` from a canonical store: it stores the closure of its
receiver, changes only types reached from the receiver, and the store stays
canonical. -/
theorem compileEmbeds_spec (w : World) {n : Nat} {st st2 : Store} {tp : Ptr}
    (hc : Canon w st) (h : CompileEmbeds w n st tp = some st2) :
    closure w n tp = some (st2 tp) ∧ Frame w st st2 tp ∧ Canon w st2 := by
  rcases simAt_all w n st tp (canon_leafClean w hc) with ⟨_, hn⟩ | ⟨s2, hs2, hcl, hf⟩
  · rw [hn] at h
    cases h
  · rw [hs2] at h
    cases h
    refine ⟨hcl, hf, ?_⟩
    intro q
    rcases hf.1 q with h1 | h1
    · rw [h1]
      exact hc q
    · exact Or.inr (hf.2 q h1)

theorem compileEmbeds_total (w : World) {n : Nat} {st : Store} {tp : Ptr}
    {v : Option EmbedMap} (hc : Canon w st) (hv : closure w n tp = some v) :
    ∃ st2, CompileEmbeds w n st tp = some st2 ∧ st2 tp = v := by
  rcases simAt_all w n st tp (canon_leafClean w hc) with ⟨hn, _⟩ | ⟨s2, hs2, hcl, _⟩
  · rw [hn] at hv
    cases hv
  · rw [hcl] at hv
    exact ⟨s2, hs2, Option.some.inj hv⟩

theorem computed_canon (w : World) {st : Store} (h : Computed w st) : Canon w st := by
  induction h with
  | fresh => exact canon_fresh w
  | compile st st2 n tp _ hstep ih => exact (compileEmbeds_spec w ih hstep).2.2

/-- A closure present in a canonical store survives every completed
`CompileEmbeds`. -/
theorem compileEmbeds_keeps (w : World) {n : Nat} {st st2 : Store} {tp p : Ptr}
    {m : EmbedMap} (hc : Canon w st) (hp : st p = some m)
    (h : CompileEmbeds w n st tp = some st2) : st2 p = some m := by
  obtain ⟨_, hf, _⟩ := compileEmbeds_spec w hc h
  rcases hf.1 p with h1 | h1
  · rw [h1, hp]
  · obtain ⟨k, hk⟩ := hf.2 p h1
    rcases hc p with h2 | ⟨k2, hk2⟩
    · rw [hp] at h2
      cases h2
    · rw [hp] at hk2
      exact closure_unique w hk hk2

/-! ## The closure holds the reachable types, under their IDs -/

theorem addEmbed_keeps (w : World) (acc : EmbedMap) (et : Ptr) (c : Option EmbedMap)
    (k : Nat) (h : (acc k).isSome = true) : (addEmbed w acc et c k).isSome = true := by
  cases c with
  | none =>
    simp only [addEmbed, mapSet]
    split
    · rfl
    · exact h
  | some cm =>
    simp only [addEmbed, mapMerge, mapSet]
    cases hk : cm k with
    | some ct => rfl
    | none =>
      simp only
      split
      · rfl
      · exact h

theorem addEmbed_self (w : World) (acc : EmbedMap) (et : Ptr) (c : Option EmbedMap) :
    (addEmbed w acc et c (w.Types et).ID).isSome = true := by
  cases c with
  | none => simp [addEmbed, mapSet]
  | some cm =>
    simp only [addEmbed, mapMerge, mapSet]
    cases hk : cm (w.Types et).ID with
    | some ct => rfl
    | none => simp

theorem addEmbed_closure (w : World) (acc : EmbedMap) (et : Ptr) (cm : EmbedMap)
    (k : Nat) (h : (cm k).isSome = true) :
    (addEmbed w acc et (some cm) k).isSome = true := by
  simp only [addEmbed, mapMerge]
  cases hk : cm k with
  | some ct => rfl
  | none => simp [hk] at h

theorem addEmbed_origin (w : World) (acc : EmbedMap) (et : Ptr) (c : Option EmbedMap)
    (k : Nat) (q : Ptr) (h : addEmbed w acc et c k = some q) :
    acc k = some q ∨ (q = et ∧ k = (w.Types et).ID) ∨ ∃ cm, c = some cm ∧ cm k = some q := by
  cases c with
  | none =>
    simp only [addEmbed, mapSet] at h
    split at h
    · next hk => exact Or.inr (Or.inl ⟨(Option.some.inj h).symm, hk⟩)
    · exact Or.inl h
  | some cm =>
    simp only [addEmbed, mapMerge, mapSet] at h
    cases hk : cm k with
    | some ct =>
      simp only [hk] at h
      exact Or.inr (Or.inr ⟨cm, rfl, hk.trans h⟩)
    | none =>
      simp only [hk] at h
      split at h
      · next hk2 => exact Or.inr (Or.inl ⟨(Option.some.inj h).symm, hk2⟩)
      · exact Or.inl h

theorem closureFold_keys {f : Ptr → Option (Option EmbedMap)} (w : World) :
    ∀ (l : List Ptr) (acc r : EmbedMap), closureFold f w acc l = some r →
      (∀ k, (acc k).isSome = true → (r k).isSome = true) ∧
      (∀ et ∈ l, (r (w.Types et).ID).isSome = true ∧
        ∀ cm, f et = some (some cm) → ∀ k, (cm k).isSome = true → (r k).isSome = true) := by
  intro l
  induction l with
  | nil =>
    intro acc r h
    simp only [closureFold, Option.some.injEq] at h
    subst h
    exact ⟨fun _ hk => hk, fun et het => by simp at het⟩
  | cons x rest ih =>
    intro acc r h
    simp only [closureFold] at h
    cases hf : f x with
    | none => simp [hf] at h
    | some c =>
      simp only [hf] at h
      obtain ⟨hacc, hmem⟩ := ih _ _ h
      refine ⟨fun k hk => hacc k (addEmbed_keeps w acc x c k hk), ?_⟩
      intro et het
      rcases List.mem_cons.mp het with rfl | hin
      · refine ⟨hacc _ (addEmbed_self w acc et c), ?_⟩
        intro cm hcm k hk
        rw [hf] at hcm
        cases hcm
        exact hacc k (addEmbed_closure w acc et cm k hk)
      · exact hmem et hin

theorem closureFold_origin {f : Ptr → Option (Option EmbedMap)} (w : World) :
    ∀ (l : List Ptr) (acc r : EmbedMap), closureFold f w acc l = some r →
      ∀ k q, r k = some q → acc k = some q ∨
        ∃ et ∈ l, (q = et ∧ k = (w.Types et).ID) ∨ ∃ cm, f et = some (some cm) ∧ cm k = some q := by
  intro l
  induction l with
  | nil =>
    intro acc r h k q hr
    simp only [closureFold, Option.some.injEq] at h
    subst h
    exact Or.inl hr
  | cons x rest ih =>
    intro acc r h k q hr
    simp only [closureFold] at h
    cases hf : f x with
    | none => simp [hf] at h
    | some c =>
      simp only [hf] at h
      rcases ih _ _ h k q hr with h1 | ⟨et, het, h2⟩
      · rcases addEmbed_origin w acc x c k q h1 with h3 | h3 | ⟨cm, hcm, h3⟩
        · exact Or.inl h3
        · exact Or.inr ⟨x, List.mem_cons_self _ _, Or.inl h3⟩
        · exact Or.inr ⟨x, List.mem_cons_self _ _, Or.inr ⟨cm, by rw [hf, hcm], h3⟩⟩
      · exact Or.inr ⟨et, List.mem_cons_of_mem _ het, h2⟩

theorem closure_active (w : World) {n : Nat} {p q : Ptr} {v : Option EmbedMap}
    (h : closure w n p = some v) (hpq : DirectEmbed w p q) : ∃ m, v = some m := by
  obtain ⟨l, hl, _⟩ := hpq
  cases n with
  | zero => simp [closure] at h
  | succ n =>
    rw [closure_succ, hl] at h
    simp only [Option.map_eq_some'] at h
    obtain ⟨r, _, hv⟩ := h
    exact ⟨r, hv.symm⟩

/-- Every type reachable from `p` has an entry under its ID in the closure of `p`. -/
theorem closure_complete (w : World) :
    ∀ (n : Nat) (p : Ptr) (m : EmbedMap), closure w n p = some (some m) →
      ∀ q, Reaches w p q → (m (w.Types q).ID).isSome = true := by
  intro n
  induction n with
  | zero => intro p m h; simp [closure] at h
  | succ n ih =>
    intro p m h q hq
    obtain ⟨et, hE, hr⟩ := Relation.TransGen.head'_iff.mp hq
    obtain ⟨l, hl, het⟩ := hE
    rw [closure_succ, hl] at h
    simp only [Option.map_eq_some'] at h
    obtain ⟨r, hr2, hrm⟩ := h
    cases hrm
    obtain ⟨_, hmem⟩ := closureFold_keys w l _ _ hr2
    obtain ⟨hself, hcl⟩ := hmem et het
    rcases Relation.reflTransGen_iff_eq_or_transGen.mp hr with heq | htr
    · rw [heq]
      exact hself
    · obtain ⟨c, hc⟩ := closureFold_some_mem w l _ _ hr2 et het
      obtain ⟨x, hx, _⟩ := Relation.TransGen.head'_iff.mp htr
      obtain ⟨cm, hcm⟩ := closure_active w hc hx
      subst hcm
      exact hcl cm hc _ (ih et cm hc q htr)

/-- Every entry of the closure of `p` is a type reachable from `p`, under its ID. -/
theorem closure_sound (w : World) :
    ∀ (n : Nat) (p : Ptr) (m : EmbedMap), closure w n p = some (some m) →
      ∀ k q, m k = some q → Reaches w p q ∧ (w.Types q).ID = k := by
  intro n
  induction n with
  | zero => intro p m h; simp [closure] at h
  | succ n ih =>
    intro p m h k q hk
    rw [closure_succ] at h
    cases hl : embedTargets w p with
    | none => simp [hl] at h
    | some l =>
      simp only [hl, Option.map_eq_some'] at h
      obtain ⟨r, hr2, hrm⟩ := h
      cases hrm
      rcases closureFold_origin w l _ _ hr2 k q hk with h1 | ⟨et, het, h2⟩
      · simp [emptyMap] at h1
      · have hE : DirectEmbed w p et := ⟨l, hl, het⟩
        rcases h2 with ⟨hq, hkid⟩ | ⟨cm, hcm, hcmk⟩
        · subst hq
          exact ⟨Relation.TransGen.single hE, hkid.symm⟩
        · obtain ⟨hreach, hid⟩ := ih et cm hcm k q hcmk
          exact ⟨Relation.TransGen.head hE hreach, hid⟩

theorem directEmbed_registered (w : World) {r t : Ptr} (h : DirectEmbed w r t) :
    ∃ name, w.TypeByName name = some t := by
  obtain ⟨l, hl, ht⟩ := h
  unfold embedTargets at hl
  cases he : (w.Types r).Embeds with
  | none => simp [he] at hl
  | some embeds =>
    cases hrt : ReflectType w r with
    | none => simp [he, hrt] at hl
    | some rt =>
      simp only [he, hrt, Option.some.injEq] at hl
      rw [← hl] at ht
      obtain ⟨em, _, hres⟩ := List.mem_filterMap.mp ht
      unfold resolveEmbed at hres
      cases hf : w.FieldByName rt (embedFieldName em) with
      | none => simp [hf] at hres
      | some etft =>
        simp only [hf] at hres
        exact ⟨_, hres⟩

/-- With distinct IDs the closure of `p` maps `k` to `q` exactly when `q` is
reachable from `p` and has the ID `k`. -/
theorem closure_char (w : World) (hid : DistinctIDs w) {n : Nat} {p : Ptr} {m : EmbedMap}
    (h : closure w n p = some (some m)) (k : Nat) (q : Ptr) :
    m k = some q ↔ Reaches w p q ∧ (w.Types q).ID = k := by
  constructor
  · exact closure_sound w n p m h k q
  · rintro ⟨hr, hk⟩
    have hsome := closure_complete w n p m h q hr
    rw [hk] at hsome
    obtain ⟨q2, hq2⟩ := Option.isSome_iff_exists.mp hsome
    obtain ⟨hr2, hk2⟩ := closure_sound w n p m h k q2 hq2
    obtain ⟨_, _, hE⟩ := Relation.TransGen.tail'_iff.mp hr
    obtain ⟨_, _, hE2⟩ := Relation.TransGen.tail'_iff.mp hr2
    obtain ⟨n1, hn1⟩ := directEmbed_registered w hE
    obtain ⟨n2, hn2⟩ := directEmbed_registered w hE2
    have : q2 = q := hid q2 q n2 n1 hn2 hn1 (hk2.trans hk.symm)
    rw [hq2, this]

/-! ## `HasEmbed` -/

/-- A completed `HasEmbed` from a canonical store returns the value read off the
closure of its receiver, which the store then holds. -/
theorem hasEmbed_spec (w : World) {n : Nat} {st st2 : Store} {tp typ : Ptr} {b : Bool}
    (hc : Canon w st) (h : HasEmbed w n st tp typ = some (st2, b)) :
    IsClosure w tp (st2 tp) ∧ b = hasEmbedValue w (st2 tp) tp typ ∧ Canon w st2 ∧
      (st tp = none → CompileEmbeds w n st tp = some st2) ∧ (st tp ≠ none → st2 = st) := by
  unfold HasEmbed at h
  cases hs : st tp with
  | some m =>
    simp only [hs, Option.some.injEq, Prod.mk.injEq] at h
    obtain ⟨h1, h2⟩ := h
    subst h1
    refine ⟨?_, ?_, hc, fun h0 => by simp at h0, fun _ => rfl⟩
    · rcases hc tp with h3 | h3
      · rw [hs] at h3
        cases h3
      · exact h3
    · rw [hs]
      exact h2.symm
  | none =>
    simp only [hs] at h
    cases hce : CompileEmbeds w n st tp with
    | none => simp [hce] at h
    | some s2 =>
      simp only [hce] at h
      obtain ⟨hcl, _, hcan⟩ := compileEmbeds_spec w hc hce
      cases h2 : s2 tp with
      | none =>
        simp only [h2, Option.some.injEq, Prod.mk.injEq] at h
        obtain ⟨h3, h4⟩ := h
        subst h3
        refine ⟨⟨n, hcl⟩, ?_, hcan, fun _ => rfl, fun h0 => absurd rfl h0⟩
        rw [h2]
        exact h4.symm
      | some m =>
        simp only [h2, Option.some.injEq, Prod.mk.injEq] at h
        obtain ⟨h3, h4⟩ := h
        subst h3
        refine ⟨⟨n, hcl⟩, ?_, hcan, fun _ => rfl, fun h0 => absurd rfl h0⟩
        rw [h2]
        exact h4.symm

/-- From a canonical store `HasEmbed` completes at every depth at which the closure
of its receiver is computed. -/
theorem hasEmbed_total (w : World) {n : Nat} {st : Store} {tp : Ptr}
    {v : Option EmbedMap} (typ : Ptr) (hc : Canon w st) (hv : closure w n tp = some v) :
    ∃ st2, HasEmbed w n st tp typ = some (st2, hasEmbedValue w v tp typ) := by
  cases hs : st tp with
  | some m =>
    have hvm : v = some m := by
      rcases hc tp with h3 | ⟨k, hk⟩
      · rw [hs] at h3
        cases h3
      · rw [hs] at hk
        exact closure_unique w hv hk
    subst hvm
    exact ⟨st, by simp only [HasEmbed, hs, hasEmbedValue]⟩
  | none =>
    obtain ⟨s2, hce, h2⟩ := compileEmbeds_total w hc hv
    refine ⟨s2, ?_⟩
    subst h2
    cases h3 : s2 tp with
    | none => simp only [HasEmbed, hs, hce, h3, hasEmbedValue]
    | some m => simp only [HasEmbed, hs, hce, h3, hasEmbedValue]

/-- A completed `HasEmbed` leaves a store the code has produced: its effect on the
store is that of `CompileEmbeds`, or none. -/
theorem computed_hasEmbed (w : World) {n : Nat} {st st2 : Store} {tp typ : Ptr} {b : Bool}
    (hst : Computed w st) (h : HasEmbed w n st tp typ = some (st2, b)) :
    Computed w st2 := by
  obtain ⟨_, _, _, h1, h2⟩ := hasEmbed_spec w (computed_canon w hst) h
  cases hs : st tp with
  | none => exact Computed.compile st st2 n tp hst (h1 hs)
  | some m =>
    rw [h2 (by simp [hs])]
    exact hst

/-- On a type that lies on an embed cycle no call completes, at any depth. -/
theorem cycle_diverges (w : World) {st : Store} {a : Ptr} (hc : Canon w st)
    (hcyc : Reaches w a a) :
    ∀ n, CompileEmbeds w n st a = none ∧ ∀ typ, HasEmbed w n st a typ = none := by
  intro n
  have hcl : ∀ k, closure w k a = none := by
    intro k
    cases hk : closure w k a with
    | none => rfl
    | some v => exact absurd hcyc (closure_nocycle w k a v hk)
  have hs : st a = none := by
    rcases hc a with h | ⟨k, hk⟩
    · exact h
    · rw [hcl k] at hk
      cases hk
  have hce : CompileEmbeds w n st a = none := by
    rcases simAt_all w n st a (canon_leafClean w hc) with ⟨_, h⟩ | ⟨s2, _, h, _⟩
    · exact h
    · rw [hcl n] at h
      cases h
  refine ⟨hce, fun typ => ?_⟩
  simp only [HasEmbed, hs, hce]

theorem hasEmbedValue_reachable (w : World) {n : Nat} {a x : Ptr} {v : Option EmbedMap}
    (hv : closure w n a = some v) (hx : Reaches w a x) : hasEmbedValue w v a x = true := by
  obtain ⟨y, hy, _⟩ := Relation.TransGen.head'_iff.mp hx
  obtain ⟨m, hm⟩ := closure_active w hv hy
  subst hm
  have := closure_complete w n a m hv x hx
  simp only [hasEmbedValue, lookupEmbed]
  split
  · rfl
  · exact this

theorem hasEmbedValue_unreachable (w : World) {n : Nat} {a d : Ptr} {v : Option EmbedMap}
    (hv : closure w n a = some v) (hne : d ≠ a) (hd : ¬ Reaches w a d)
    (hid : ∀ x, Reaches w a x → (w.Types x).ID = (w.Types d).ID → x = d) :
    hasEmbedValue w v a d = false := by
  cases v with
  | none => simp [hasEmbedValue, hne]
  | some m =>
    simp only [hasEmbedValue, lookupEmbed]
    rw [if_neg (fun h => hne h.symm)]
    cases hk : m (w.Types d).ID with
    | none => rfl
    | some q =>
      obtain ⟨hq, hqid⟩ := closure_sound w n a m hv _ q hk
      exact absurd (hid q hq hqid ▸ hq) hd

theorem hasEmbedValue_self (w : World) (v : Option EmbedMap) (a : Ptr) :
    hasEmbedValue w v a a = true := by
  cases v with
  | none => simp [hasEmbedValue]
  | some m => simp [hasEmbedValue, lookupEmbed]

/-! ## The example registries -/

theorem chain_targets (p : Ptr) (l : List Ptr) (h : embedTargets chainWorld p = some l) :
    (p = 0 ∧ l = [1]) ∨ (p = 1 ∧ l = [2]) := by
  match p with
  | 0 =>
    have h0 : embedTargets chainWorld 0 = some [1] := by decide
    rw [h0] at h
    exact Or.inl ⟨rfl, (Option.some.inj h).symm⟩
  | 1 =>
    have h0 : embedTargets chainWorld 1 = some [2] := by decide
    rw [h0] at h
    exact Or.inr ⟨rfl, (Option.some.inj h).symm⟩
  | 2 =>
    have h0 : embedTargets chainWorld 2 = none := by decide
    rw [h0] at h
    cases h
  | 3 =>
    have h0 : embedTargets chainWorld 3 = none := by decide
    rw [h0] at h
    cases h
  | p + 4 =>
    have h0 : embedTargets chainWorld (p + 4) = none := rfl
    rw [h0] at h
    cases h

theorem chain_acyclic (a : Ptr) : AcyclicFrom chainWorld a := by
  refine ⟨fun p => 3 - p, ?_⟩
  rintro p q _ ⟨l, hl, hq⟩
  rcases chain_targets p l hl with ⟨rfl, rfl⟩ | ⟨rfl, rfl⟩
  · simp only [List.mem_singleton] at hq
    subst hq
    decide
  · simp only [List.mem_singleton] at hq
    subst hq
    decide

theorem chain_embed_01 : DirectEmbed chainWorld 0 1 :=
  ⟨[1], by decide, by simp⟩

theorem chain_embed_12 : DirectEmbed chainWorld 1 2 :=
  ⟨[2], by decide, by simp⟩

theorem chain_not_reaches_3 : ¬ Reaches chainWorld 0 3 := by
  intro h
  obtain ⟨p, _, l, hl, hq⟩ := Relation.TransGen.tail'_iff.mp h
  rcases chain_targets p l hl with ⟨_, rfl⟩ | ⟨_, rfl⟩
  · simp at hq
  · simp at hq

theorem sameID_targets (p : Ptr) (l : List Ptr) (h : embedTargets sameIDWorld p = some l) :
    l = [1] := by
  match p with
  | 0 =>
    have h0 : embedTargets sameIDWorld 0 = some [1] := by decide
    rw [h0] at h
    exact (Option.some.inj h).symm
  | 1 =>
    have h0 : embedTargets sameIDWorld 1 = none := by decide
    rw [h0] at h
    cases h
  | 2 =>
    have h0 : embedTargets sameIDWorld 2 = none := by decide
    rw [h0] at h
    cases h
  | 3 =>
    have h0 : embedTargets sameIDWorld 3 = none := by decide
    rw [h0] at h
    cases h
  | 4 =>
    have h0 : embedTargets sameIDWorld 4 = none := by decide
    rw [h0] at h
    cases h
  | p + 5 =>
    have h0 : embedTargets sameIDWorld (p + 5) = none := rfl
    rw [h0] at h
    cases h

theorem self_targets (p : Ptr) (l : List Ptr) (h : embedTargets selfWorld p = some l) :
    l = [0] := by
  match p with
  | 0 =>
    have h0 : embedTargets selfWorld 0 = some [0] := by decide
    rw [h0] at h
    exact (Option.some.inj h).symm
  | p + 1 =>
    have h0 : embedTargets selfWorld (p + 1) = none := rfl
    rw [h0] at h
    cases h

/-- On an embed cycle of two types no call completes, whatever the registry. -/
theorem two_cycle_diverges (w : World) (st : Store) (a b : Ptr) (hst : Computed w st)
    (hab : DirectEmbed w a b) (hba : DirectEmbed w b a) (n : Nat) :
    CompileEmbeds w n st a = none ∧ HasEmbed w n st a b = none ∧
      HasEmbed w n st b a = none := by
  have hc := computed_canon w hst
  have ha : Reaches w a a := Relation.TransGen.head hab (Relation.TransGen.single hba)
  have hb : Reaches w b b := Relation.TransGen.head hba (Relation.TransGen.single hab)
  exact ⟨(cycle_diverges w hc ha n).1, (cycle_diverges w hc ha n).2 b,
    (cycle_diverges w hc hb n).2 a⟩

/-- A closure present in a store the code has produced was stored by a completed
`CompileEmbeds` on its type or on a type that reaches it. -/
theorem computed_origin (w : World) {st : Store} (hst : Computed w st) (p : Ptr)
    (m : EmbedMap) (hp : st p = some m) :
    ∃ st0 n tp st1, Computed w st0 ∧ CompileEmbeds w n st0 tp = some st1 ∧
      ReachesRefl w tp p ∧ st1 p = some m := by
  induction hst with
  | fresh => cases hp
  | compile st st2 n tp hprev hstep ih =>
    obtain ⟨_, hf, _⟩ := compileEmbeds_spec w (computed_canon w hprev) hstep
    rcases hf.1 p with h | h
    · exact ih (h ▸ hp)
    · exact ⟨st, n, tp, st2, hprev, hstep, h, hp⟩

/-! ## C1 to C4: membership in the closure -/

/-- C1, the code at the failing input: `A` embeds `B`, `B` embeds `C` and `C` embeds
`A`, all registered and with instances, every embed resolving; from absent closures
`HasEmbed(A, C)` completes at no recursion depth, so it does not return true.  The
recursive call at line 110 of type.go has no mark for a type being compiled. -/
theorem hasEmbed_reachable_fails_on_cycle :
    DirectEmbed triangleWorld 0 1 ∧ DirectEmbed triangleWorld 1 2 ∧
      ¬ ∃ n r, HasEmbed triangleWorld n freshStore 0 2 = some r := by
  have h01 : DirectEmbed triangleWorld 0 1 := ⟨[1], by decide, by simp⟩
  have h12 : DirectEmbed triangleWorld 1 2 := ⟨[2], by decide, by simp⟩
  have h20 : DirectEmbed triangleWorld 2 0 := ⟨[0], by decide, by simp⟩
  refine ⟨h01, h12, ?_⟩
  rintro ⟨n, r, hr⟩
  have hcyc : Reaches triangleWorld 0 0 :=
    Relation.TransGen.head h01 (Relation.TransGen.head h12 (Relation.TransGen.single h20))
  rw [(cycle_diverges triangleWorld (canon_fresh _) hcyc n).2 2] at hr
  cases hr

/-- Reachable types, where the code meets C1: in a store the code has produced, for
every type `x` reachable from `a` through one or more embed steps (so for `c` when
`a` embeds `b` and `b` embeds `c`), `HasEmbed(a, x)` never returns false, and when
no embed cycle lies below `a` it returns true at every sufficient recursion depth. -/
theorem hasEmbed_reachable (w : World) (st : Store) (a x : Ptr)
    (hst : Computed w st) (hx : Reaches w a x) :
    (∀ n st2 b, HasEmbed w n st a x = some (st2, b) → b = true) ∧
    (AcyclicFrom w a →
      ∃ n, ∀ m, n ≤ m → ∃ st2, HasEmbed w m st a x = some (st2, true)) := by
  have hc := computed_canon w hst
  refine ⟨?_, ?_⟩
  · intro n st2 b h
    obtain ⟨⟨k, hk⟩, hb, _⟩ := hasEmbed_spec w hc h
    rw [hb]
    exact hasEmbedValue_reachable w hk hx
  · intro hac
    obtain ⟨n, v, hv⟩ := closure_of_acyclic w a hac
    refine ⟨n, fun m hm => ?_⟩
    have hvm := closure_mono_le w hm a v hv
    obtain ⟨st2, h2⟩ := hasEmbed_total w x hc hvm
    exact ⟨st2, by rw [h2, hasEmbedValue_reachable w hvm hx]⟩

/-- In the chain `A`, `B`, `C` the query `HasEmbed(A, C)` returns true. -/
theorem hasEmbed_reachable_witness :
    ∃ n, ∀ m, n ≤ m → ∃ st2, HasEmbed chainWorld m freshStore 0 2 = some (st2, true) :=
  (hasEmbed_reachable chainWorld freshStore 0 2 Computed.fresh
    (Relation.TransGen.head chain_embed_01 (Relation.TransGen.single chain_embed_12))).2
    (chain_acyclic 0)

/-- C2, counterexample: a type `A` that embeds itself, and a type `B` that is
neither `A` nor reachable from `A`: from absent closures `HasEmbed(A, B)` completes
at no recursion depth, so it does not return false.  And where `A` embeds `B` and a
record that is neither `A` nor reachable from `A` carries the ID of `B`, `HasEmbed`
returns true for it. -/
theorem hasEmbed_unreachable_fails :
    ((1 : Ptr) ≠ 0 ∧ ¬ Reaches selfWorld 0 1 ∧
      ¬ ∃ n r, HasEmbed selfWorld n freshStore 0 1 = some r) ∧
    ((4 : Ptr) ≠ 0 ∧ ¬ Reaches sameIDWorld 0 4 ∧
      (HasEmbed sameIDWorld 2 freshStore 0 4).map Prod.snd = some true) := by
  refine ⟨⟨by decide, ?_, ?_⟩, ⟨by decide, ?_, by decide⟩⟩
  · intro h
    obtain ⟨p, _, l, hl, hq⟩ := Relation.TransGen.tail'_iff.mp h
    rw [self_targets p l hl] at hq
    simp at hq
  · have h00 : DirectEmbed selfWorld 0 0 := ⟨[0], by decide, by simp⟩
    rintro ⟨n, r, hr⟩
    rw [(cycle_diverges selfWorld (canon_fresh _) (Relation.TransGen.single h00) n).2 1] at hr
    cases hr
  · intro h
    obtain ⟨p, _, l, hl, hq⟩ := Relation.TransGen.tail'_iff.mp h
    rw [sameID_targets p l hl] at hq
    simp at hq

/-- C2, amended: in a store the code has produced, for every type `d` that is not
`a`, is not reachable from `a` and shares its ID with no type reachable from `a`,
`HasEmbed(a, d)` never returns true, and when no embed cycle lies below `a` it
returns false at every sufficient recursion depth. -/
theorem hasEmbed_unreachable (w : World) (st : Store) (a d : Ptr)
    (hst : Computed w st) (hne : d ≠ a) (hd : ¬ Reaches w a d)
    (hid : ∀ x, Reaches w a x → (w.Types x).ID = (w.Types d).ID → x = d) :
    (∀ n st2 b, HasEmbed w n st a d = some (st2, b) → b = false) ∧
    (AcyclicFrom w a →
      ∃ n, ∀ m, n ≤ m → ∃ st2, HasEmbed w m st a d = some (st2, false)) := by
  have hc := computed_canon w hst
  refine ⟨?_, ?_⟩
  · intro n st2 b h
    obtain ⟨⟨k, hk⟩, hb, _⟩ := hasEmbed_spec w hc h
    rw [hb]
    exact hasEmbedValue_unreachable w hk hne hd hid
  · intro hac
    obtain ⟨n, v, hv⟩ := closure_of_acyclic w a hac
    refine ⟨n, fun m hm => ?_⟩
    have hvm := closure_mono_le w hm a v hv
    obtain ⟨st2, h2⟩ := hasEmbed_total w d hc hvm
    exact ⟨st2, by rw [h2, hasEmbedValue_unreachable w hvm hne hd hid]⟩

/-- C2, witness: in the chain `A`, `B`, `C` with `D` standing alone, `HasEmbed(A, D)`
returns false. -/
theorem hasEmbed_unreachable_witness :
    ∃ n, ∀ m, n ≤ m → ∃ st2, HasEmbed chainWorld m freshStore 0 3 = some (st2, false) :=
  (hasEmbed_unreachable chainWorld freshStore 0 3 Computed.fresh (by decide)
    chain_not_reaches_3
    (by
      intro x hx hxid
      obtain ⟨p, _, l, hl, hq⟩ := Relation.TransGen.tail'_iff.mp hx
      rcases chain_targets p l hl with ⟨_, rfl⟩ | ⟨_, rfl⟩
      · simp only [List.mem_singleton] at hq
        subst hq
        exact absurd hxid (by decide)
      · simp only [List.mem_singleton] at hq
        subst hq
        exact absurd hxid (by decide))).2
    (chain_acyclic 0)

/-- C3, the code at the failing input: a type `A`, registered and with an instance,
that embeds itself; from absent closures `HasEmbed(A, A)` completes at no recursion
depth, so it does not return true: `CompileEmbeds` runs before the equality test and
its recursive call has no mark for a type being compiled. -/
theorem hasEmbed_self_fails_on_cycle :
    DirectEmbed selfWorld 0 0 ∧ ¬ ∃ n r, HasEmbed selfWorld n freshStore 0 0 = some r := by
  have h00 : DirectEmbed selfWorld 0 0 := ⟨[0], by decide, by simp⟩
  refine ⟨h00, ?_⟩
  rintro ⟨n, r, hr⟩
  rw [(cycle_diverges selfWorld (canon_fresh _) (Relation.TransGen.single h00) n).2 0] at hr
  cases hr

/-- The type itself, where the code meets C3: in a store the code has produced,
`HasEmbed(a, a)` never returns false, and it returns true at every sufficient
recursion depth when `a` has no embeds, or no instance, or a computed closure, or no
embed cycle below it. -/
theorem hasEmbed_self (w : World) (st : Store) (a : Ptr) (hst : Computed w st) :
    (∀ n st2 b, HasEmbed w n st a a = some (st2, b) → b = true) ∧
    ((w.Types a).Embeds = none ∨ (w.Types a).Instance = none ∨ st a ≠ none ∨
        AcyclicFrom w a →
      ∃ n, ∀ m, n ≤ m → ∃ st2, HasEmbed w m st a a = some (st2, true)) := by
  have hc := computed_canon w hst
  refine ⟨?_, ?_⟩
  · intro n st2 b h
    obtain ⟨_, hb, _⟩ := hasEmbed_spec w hc h
    rw [hb]
    exact hasEmbedValue_self w _ a
  · intro hcase
    have hcl : ∃ n v, closure w n a = some v := by
      rcases hcase with h | h | h | h
      · exact ⟨1, none, by simp [closure_succ, embedTargets, h]⟩
      · exact ⟨1, none, by
          rw [closure_succ]
          simp only [embedTargets, ReflectType, h]
          cases (w.Types a).Embeds <;> rfl⟩
      · rcases hc a with h2 | ⟨k, hk⟩
        · exact absurd h2 h
        · exact ⟨k, _, hk⟩
      · exact closure_of_acyclic w a h
    obtain ⟨n, v, hv⟩ := hcl
    refine ⟨n, fun m hm => ?_⟩
    have hvm := closure_mono_le w hm a v hv
    obtain ⟨st2, h2⟩ := hasEmbed_total w a hc hvm
    exact ⟨st2, by rw [h2, hasEmbedValue_self]⟩

/-- In the chain `A`, `B`, `C` the query `HasEmbed(A, A)` returns true. -/
theorem hasEmbed_self_witness :
    ∃ n, ∀ m, n ≤ m → ∃ st2, HasEmbed chainWorld m freshStore 0 0 = some (st2, true) :=
  (hasEmbed_self chainWorld freshStore 0 Computed.fresh).2
    (Or.inr (Or.inr (Or.inr (chain_acyclic 0))))

/-- C4, the code at the failing input: `A` embeds `B` and `B` embeds `A`, both
registered and with instances; from absent closures neither `CompileEmbeds` on `A`
nor `HasEmbed(A, B)` nor `HasEmbed(B, A)` completes at any recursion depth. -/
theorem compileEmbeds_cycle_never_returns :
    DirectEmbed cycleWorld 0 1 ∧ DirectEmbed cycleWorld 1 0 ∧
      (¬ ∃ n r, CompileEmbeds cycleWorld n freshStore 0 = some r) ∧
      (¬ ∃ n r, HasEmbed cycleWorld n freshStore 0 1 = some r) ∧
      (¬ ∃ n r, HasEmbed cycleWorld n freshStore 1 0 = some r) := by
  have h01 : DirectEmbed cycleWorld 0 1 := ⟨[1], by decide, by simp⟩
  have h10 : DirectEmbed cycleWorld 1 0 := ⟨[0], by decide, by simp⟩
  have hd := two_cycle_diverges cycleWorld freshStore 0 1 Computed.fresh h01 h10
  refine ⟨h01, h10, ?_, ?_, ?_⟩
  · rintro ⟨n, r, hr⟩
    rw [(hd n).1] at hr
    cases hr
  · rintro ⟨n, r, hr⟩
    rw [(hd n).2.1] at hr
    cases hr
  · rintro ⟨n, r, hr⟩
    rw [(hd n).2.2] at hr
    cases hr

/-! ## C5: unresolved embeds -/

theorem embedLoop_filter (call : Store → Ptr → Option Store) (w : World) (tp : Ptr)
    (rt : RType) :
    ∀ (l : List KeyVal) (s : Store),
      embedLoop call w tp rt s l
        = embedLoop call w tp rt s (l.filter (fun em => (resolveEmbed w rt em).isSome)) := by
  intro l
  induction l with
  | nil => intro s; rfl
  | cons em rest ih =>
    intro s
    cases hres : resolveEmbed w rt em with
    | none =>
      have hstep : embedStep call w tp rt s em = some s := by
        simp only [embedStep, hres]
      simp only [embedLoop, hstep, List.filter_cons, hres, Option.isSome_none,
        Bool.false_eq_true, if_false]
      exact ih s
    | some et =>
      simp only [List.filter_cons, hres, Option.isSome_some, if_true, embedLoop]
      cases embedStep call w tp rt s em with
      | none => rfl
      | some s2 => exact ih s2

theorem skip_targets (p : Ptr) (l : List Ptr) (h : embedTargets skipWorld p = some l) :
    (p = 0 ∧ l = [1]) ∨ (p = 1 ∧ l = [2]) := by
  match p with
  | 0 =>
    have h0 : embedTargets skipWorld 0 = some [1] := by decide
    rw [h0] at h
    exact Or.inl ⟨rfl, (Option.some.inj h).symm⟩
  | 1 =>
    have h0 : embedTargets skipWorld 1 = some [2] := by decide
    rw [h0] at h
    exact Or.inr ⟨rfl, (Option.some.inj h).symm⟩
  | 2 =>
    have h0 : embedTargets skipWorld 2 = none := by decide
    rw [h0] at h
    cases h
  | p + 3 =>
    have h0 : embedTargets skipWorld (p + 3) = none := rfl
    rw [h0] at h
    cases h

theorem skip_acyclic (a : Ptr) : AcyclicFrom skipWorld a := by
  refine ⟨fun p => 3 - p, ?_⟩
  rintro p q _ ⟨l, hl, hq⟩
  rcases skip_targets p l hl with ⟨rfl, rfl⟩ | ⟨rfl, rfl⟩
  · simp only [List.mem_singleton] at hq
    subst hq
    decide
  · simp only [List.mem_singleton] at hq
    subst hq
    decide

/-- C5, the code at the failing input: `A` declares an embed with no such field, the
embed `B`, and an embed whose field type is not registered; `B` embeds `A`; both are
registered and have instances.  `CompileEmbeds` on `A` completes at no recursion
depth: the recursive call on the resolved sibling `B` has no mark for a type being
compiled and comes back to `A`. -/
theorem compileEmbeds_unresolved_fails_on_cycle :
    resolveEmbed skipCycleWorld 0 (exEmbed "X") = none ∧
      resolveEmbed skipCycleWorld 0 (exEmbed "B") = some 1 ∧
      resolveEmbed skipCycleWorld 0 (exEmbed "Y") = none ∧
      ¬ ∃ n r, CompileEmbeds skipCycleWorld n freshStore 0 = some r := by
  refine ⟨by decide, by decide, by decide, ?_⟩
  have h01 : DirectEmbed skipCycleWorld 0 1 := ⟨[1], by decide, by simp⟩
  have h10 : DirectEmbed skipCycleWorld 1 0 := ⟨[0], by decide, by simp⟩
  rintro ⟨n, r, hr⟩
  rw [(cycle_diverges skipCycleWorld (canon_fresh _)
    (Relation.TransGen.head h01 (Relation.TransGen.single h10)) n).1] at hr
  cases hr

/-- Unresolved embeds, where the code meets C5: for a type `a` with `Embeds` and an
instance, in a store the code has produced: the loop of `CompileEmbeds` gives the
same result with the unresolved entries as without them, wherever they sit in the
list; whenever `CompileEmbeds` completes, the closure of `a` has an entry for every
resolved embed and for every type reachable from it (the type itself when the
registered types have distinct IDs), and every entry of the closure is a resolved
embed or a type reachable from one; and `CompileEmbeds` completes at every
sufficient recursion depth when no embed cycle lies below `a`. -/
theorem compileEmbeds_skips_unresolved (w : World) (st : Store) (a : Ptr)
    (embeds : Fields) (rt : RType) (hst : Computed w st)
    (he : (w.Types a).Embeds = some embeds) (hrt : ReflectType w a = some rt) :
    (∀ (call : Store → Ptr → Option Store) (s : Store) (l : List KeyVal),
      embedLoop call w a rt s l
        = embedLoop call w a rt s (l.filter (fun em => (resolveEmbed w rt em).isSome))) ∧
    (∀ n st2, CompileEmbeds w n st a = some st2 → ∃ cm, st2 a = some cm ∧
      (∀ em ∈ embeds.Order, ∀ et, resolveEmbed w rt em = some et →
        (cm (w.Types et).ID).isSome = true ∧
        (∀ x, Reaches w et x → (cm (w.Types x).ID).isSome = true) ∧
        (DistinctIDs w → cm (w.Types et).ID = some et ∧
          ∀ x, Reaches w et x → cm (w.Types x).ID = some x)) ∧
      (∀ k q, cm k = some q → ∃ em ∈ embeds.Order, ∃ et,
        resolveEmbed w rt em = some et ∧ ReachesRefl w et q ∧ (w.Types q).ID = k)) ∧
    (AcyclicFrom w a → ∃ n, ∀ m, n ≤ m → ∃ st2, CompileEmbeds w m st a = some st2) := by
  have hc := computed_canon w hst
  have ht : embedTargets w a = some (embeds.Order.filterMap (resolveEmbed w rt)) := by
    simp only [embedTargets, he, hrt]
  refine ⟨fun call s l => embedLoop_filter call w a rt l s, ?_, ?_⟩
  · intro n st2 h
    obtain ⟨hcl, _, _⟩ := compileEmbeds_spec w hc h
    cases n with
    | zero => simp [closure] at hcl
    | succ n =>
      have hcl2 := hcl
      rw [closure_succ, ht] at hcl2
      simp only [Option.map_eq_some'] at hcl2
      obtain ⟨cm, _, hcm⟩ := hcl2
      refine ⟨cm, hcm.symm, ?_, ?_⟩
      · intro em hem et hres
        have hE : DirectEmbed w a et := ⟨_, ht, List.mem_filterMap.mpr ⟨em, hem, hres⟩⟩
        rw [← hcm] at hcl
        refine ⟨closure_complete w _ a cm hcl et (Relation.TransGen.single hE), ?_, ?_⟩
        · intro x hx
          exact closure_complete w _ a cm hcl x (Relation.TransGen.head hE hx)
        · intro hid
          refine ⟨(closure_char w hid hcl _ et).mpr ⟨Relation.TransGen.single hE, rfl⟩, ?_⟩
          intro x hx
          exact (closure_char w hid hcl _ x).mpr ⟨Relation.TransGen.head hE hx, rfl⟩
      · intro k q hk
        rw [← hcm] at hcl
        obtain ⟨hq, hid⟩ := closure_sound w _ a cm hcl k q hk
        obtain ⟨et, ⟨l, hl, het⟩, hr⟩ := Relation.TransGen.head'_iff.mp hq
        rw [ht] at hl
        cases hl
        obtain ⟨em, hem, hres⟩ := List.mem_filterMap.mp het
        exact ⟨em, hem, et, hres, hr, hid⟩
  · intro hac
    obtain ⟨n, v, hv⟩ := closure_of_acyclic w a hac
    refine ⟨n, fun m hm => ?_⟩
    obtain ⟨st2, h2, _⟩ := compileEmbeds_total w hc (closure_mono_le w hm a v hv)
    exact ⟨st2, h2⟩

/-- Type `A` declares the embeds `X` (no such field), `B` and `Y` (type not
registered), and `B` embeds `C`; `CompileEmbeds` on `A` completes. -/
theorem compileEmbeds_skips_unresolved_witness :
    ∃ n, ∀ m, n ≤ m → ∃ st2, CompileEmbeds skipWorld m freshStore 0 = some st2 :=
  (compileEmbeds_skips_unresolved skipWorld freshStore 0
    ⟨[exEmbed "X", exEmbed "B", exEmbed "Y"]⟩ 0 Computed.fresh rfl rfl).2.2 (skip_acyclic 0)

/-! ## C6 to C9: the closure as a cache -/

theorem lookupEmbed_empty (w : World) (a x : Ptr) :
    lookupEmbed w emptyMap a x = decide (x = a) := by
  by_cases h : a = x
  · simp [lookupEmbed, h]
  · have h2 : ¬ x = a := fun h3 => h h3.symm
    simp [lookupEmbed, h, h2, emptyMap]

/-- C6, counterexample: the struct type `A` has an instance and an `Embeds` map
that is present and empty.  The query `HasEmbed(A, B)` returns false, which is
`B == A`, and leaves the closure of `A` an empty map, not absent. -/
theorem hasEmbed_empty_embeds_populates :
    (emptyEmbedsWorld.Types 0).Embeds = some ⟨[]⟩ ∧ freshStore 0 = none ∧
      ∃ st2, HasEmbed emptyEmbedsWorld 1 freshStore 0 1 = some (st2, false) ∧
        st2 0 = some emptyMap :=
  ⟨rfl, rfl, setAllEmbeds freshStore 0 emptyMap, rfl, rfl⟩

/-- C6, amended: in a store the code has produced, for a type `a` whose `Embeds` is
nil the closure is absent and every query `HasEmbed(a, x)` leaves the store as it is
and returns `x == a`; for a type whose `Embeds` is present and empty every query
returns `x == a` as well, but leaves the closure an empty map when `a` has an
instance (and absent when it has none). -/
theorem hasEmbed_no_embeds (w : World) (st : Store) (a x : Ptr) (hst : Computed w st) :
    ((w.Types a).Embeds = none →
      st a = none ∧ ∀ n, HasEmbed w (n + 1) st a x = some (st, decide (x = a))) ∧
    (∀ embeds, (w.Types a).Embeds = some embeds → embeds.Order = [] →
      ∀ n, ∃ st2, HasEmbed w (n + 1) st a x = some (st2, decide (x = a)) ∧
        ((w.Types a).Instance = none → st2 = st ∧ st a = none) ∧
        ((w.Types a).Instance ≠ none → st2 a = some emptyMap)) := by
  have hc := computed_canon w hst
  refine ⟨?_, ?_⟩
  · intro he
    have ht : embedTargets w a = none := by simp [embedTargets, he]
    have hs : st a = none := canon_leafClean w hc a ht
    refine ⟨hs, fun n => ?_⟩
    simp only [HasEmbed, hs, CompileEmbeds, he]
  · intro embeds he hord n
    cases hi : (w.Types a).Instance with
    | none =>
      have hrt : ReflectType w a = none := by simp [ReflectType, hi]
      have ht : embedTargets w a = none := by simp [embedTargets, he, hrt]
      have hs : st a = none := canon_leafClean w hc a ht
      refine ⟨st, ?_, fun _ => ⟨rfl, hs⟩, fun h => absurd rfl h⟩
      simp only [HasEmbed, hs, CompileEmbeds, he, hrt]
    | some v =>
      have hrt : ReflectType w a = some (w.ElemTypeOf v) := by simp [ReflectType, hi]
      have ht : embedTargets w a = some [] := by simp [embedTargets, he, hrt, hord]
      have hcl : closure w (n + 1) a = some (some emptyMap) := by
        rw [closure_succ, ht]
        rfl
      obtain ⟨st2, h2⟩ := hasEmbed_total w x hc hcl
      obtain ⟨⟨k, hk⟩, _⟩ := hasEmbed_spec w hc h2
      refine ⟨st2, ?_, fun h => by simp at h, fun _ => (closure_unique w hcl hk).symm⟩
      rw [h2]
      simp only [hasEmbedValue, lookupEmbed_empty]

/-- C6, witness: the type `D` of the chain example has no `Embeds`; `HasEmbed(D, A)`
leaves the closure of `D` absent and returns `A == D`. -/
theorem hasEmbed_no_embeds_witness :
    freshStore 3 = none ∧
      ∀ n, HasEmbed chainWorld (n + 1) freshStore 3 0 = some (freshStore, decide ((0 : Ptr) = 3)) :=
  (hasEmbed_no_embeds chainWorld freshStore 3 0 Computed.fresh).1 rfl

/-- C7, counterexample: `B.HasEmbed(C)` is called before `C` is registered and
leaves an empty closure for `B`; then `C` is registered (nothing else changes), and a
later `CompileEmbeds` on `A`, which embeds `B`, and likewise a later `HasEmbed(A, C)`,
replaces the closure of `B`: it now holds `C` under the ID 3. -/
theorem allEmbeds_changes_after_registration :
    chainBeforeWorld.Types = chainWorld.Types ∧
    (∀ nm, nm ≠ "pkg.C" → chainBeforeWorld.TypeByName nm = chainWorld.TypeByName nm) ∧
    chainBeforeWorld.TypeByName "pkg.C" = none ∧ chainWorld.TypeByName "pkg.C" = some 2 ∧
    ∃ st m, Computed chainBeforeWorld st ∧
      HasEmbed chainBeforeWorld 2 freshStore 1 2 = some (st, false) ∧
      st 1 = some m ∧ m 3 = none ∧
      (∃ st2 m2, CompileEmbeds chainWorld 3 st 0 = some st2 ∧
        st2 1 = some m2 ∧ m2 3 = some 2) ∧
      (∃ st2 m2, HasEmbed chainWorld 3 st 0 2 = some (st2, true) ∧
        st2 1 = some m2 ∧ m2 3 = some 2) := by
  refine ⟨rfl, ?_, by decide, by decide, ?_⟩
  · intro nm hnm
    show (if nm = "pkg.C" then none else exTypeByName nm) = exTypeByName nm
    rw [if_neg hnm]
  · have hce : CompileEmbeds chainBeforeWorld 2 freshStore 1
        = some (setAllEmbeds freshStore 1 emptyMap) := rfl
    refine ⟨setAllEmbeds freshStore 1 emptyMap, emptyMap,
      Computed.compile _ _ _ _ Computed.fresh hce, rfl, rfl, rfl, ?_, ?_⟩
    · have h : (CompileEmbeds chainWorld 3 (setAllEmbeds freshStore 1 emptyMap) 0).map
          (fun s => (s 1).map (fun m => m 3)) = some (some (some 2)) := by decide
      cases hr : CompileEmbeds chainWorld 3 (setAllEmbeds freshStore 1 emptyMap) 0 with
      | none => simp [hr] at h
      | some st2 =>
        simp only [hr, Option.map_some', Option.some.injEq] at h
        cases hm : st2 1 with
        | none => simp [hm] at h
        | some m2 =>
          simp only [hm, Option.map_some', Option.some.injEq] at h
          exact ⟨st2, m2, rfl, hm, h⟩
    · have h : (HasEmbed chainWorld 3 (setAllEmbeds freshStore 1 emptyMap) 0 2).map
          (fun r => (r.2, (r.1 1).map (fun m => m 3))) = some (true, some (some 2)) := by
        decide
      cases hr : HasEmbed chainWorld 3 (setAllEmbeds freshStore 1 emptyMap) 0 2 with
      | none => simp [hr] at h
      | some r =>
        obtain ⟨st2, b⟩ := r
        simp only [hr, Option.map_some', Option.some.injEq, Prod.mk.injEq] at h
        obtain ⟨hb, h⟩ := h
        subst hb
        cases hm : st2 1 with
        | none => simp [hm] at h
        | some m2 =>
          simp only [hm, Option.map_some', Option.some.injEq] at h
          exact ⟨st2, m2, rfl, hm, h⟩

/-- C7, amended: while the registry stays as it is (one registry `w` for the store
and for every later call), all closures are absent at first; a closure that is
present in a store the code has produced was stored by a completed `CompileEmbeds` on
its type or on a type that reaches it, and is left as it is by every later completed
`CompileEmbeds` and `HasEmbed`, on any type. -/
theorem allEmbeds_immutable (w : World) (st : Store) (p : Ptr) (m : EmbedMap)
    (hst : Computed w st) (hp : st p = some m) :
    (∀ q, freshStore q = none) ∧
    (∃ st0 n tp st1, Computed w st0 ∧ CompileEmbeds w n st0 tp = some st1 ∧
      ReachesRefl w tp p ∧ st1 p = some m) ∧
    (∀ n tp st2, CompileEmbeds w n st tp = some st2 → st2 p = some m) ∧
    (∀ n tp typ st2 b, HasEmbed w n st tp typ = some (st2, b) → st2 p = some m) := by
  have hc := computed_canon w hst
  refine ⟨fun _ => rfl, computed_origin w hst p m hp, ?_, ?_⟩
  · intro n tp st2 h
    exact compileEmbeds_keeps w hc hp h
  · intro n tp typ st2 b h
    obtain ⟨_, _, _, h1, h2⟩ := hasEmbed_spec w hc h
    cases hs : st tp with
    | none => exact compileEmbeds_keeps w hc hp (h1 hs)
    | some m2 =>
      rw [h2 (by simp [hs])]
      exact hp

/-- C7, witness: in the chain example, once `CompileEmbeds` on `A` has completed, the
closure of `B` is present, and every later completed call leaves it as it is. -/
theorem allEmbeds_immutable_witness :
    ∃ st m, Computed chainWorld st ∧ st 1 = some m ∧
      (∀ n tp st2, CompileEmbeds chainWorld n st tp = some st2 → st2 1 = some m) ∧
      (∀ n tp typ st2 b, HasEmbed chainWorld n st tp typ = some (st2, b) → st2 1 = some m) := by
  obtain ⟨n, v, hv⟩ := closure_of_acyclic chainWorld 0 (chain_acyclic 0)
  obtain ⟨st, hce, _⟩ := compileEmbeds_total chainWorld (canon_fresh chainWorld) hv
  have hcomp : Computed chainWorld st := Computed.compile _ _ _ _ Computed.fresh hce
  obtain ⟨_, hf, _⟩ := compileEmbeds_spec chainWorld (canon_fresh chainWorld) hce
  obtain ⟨k, hk⟩ := hf.2 1 (Relation.ReflTransGen.single chain_embed_01)
  obtain ⟨m, hm⟩ := closure_active chainWorld hk chain_embed_12
  have hp : st 1 = some m := hm
  exact ⟨st, m, hcomp, hp, (allEmbeds_immutable chainWorld st 1 m hcomp hp).2.2⟩

/-- C8, counterexample: in the chain example the closure of `A` is absent, and
`HasEmbed(A, A)` returns true with the closure of `A` computed: it is present after
the call. -/
theorem hasEmbed_self_computes_closure :
    freshStore 0 = none ∧
      ∃ st2 m, HasEmbed chainWorld 3 freshStore 0 0 = some (st2, true) ∧ st2 0 = some m := by
  refine ⟨rfl, ?_⟩
  have h : (HasEmbed chainWorld 3 freshStore 0 0).map (fun r => (r.2, (r.1 0).isSome))
      = some (true, true) := by decide
  cases hr : HasEmbed chainWorld 3 freshStore 0 0 with
  | none => simp [hr] at h
  | some r =>
    obtain ⟨st2, b⟩ := r
    simp only [hr, Option.map_some', Option.some.injEq, Prod.mk.injEq] at h
    obtain ⟨hb, hsome⟩ := h
    subst hb
    obtain ⟨m, hm⟩ := Option.isSome_iff_exists.mp hsome
    exact ⟨st2, m, rfl, hm⟩

/-- C8, amended: in a store the code has produced, for a type `a` whose closure is
absent, `HasEmbed(a, a)` runs `CompileEmbeds` on `a` before the equality test:
whenever it completes it returns true and leaves the store that `CompileEmbeds`
leaves, in which the closure of `a` is present as soon as `a` has `Embeds` and an
instance; and it completes at every sufficient recursion depth when no embed cycle
lies below `a`. -/
theorem hasEmbed_self_runs_compile (w : World) (st : Store) (a : Ptr)
    (hst : Computed w st) (ha : st a = none) :
    (∀ n st2 b, HasEmbed w n st a a = some (st2, b) →
      b = true ∧ CompileEmbeds w n st a = some st2 ∧
      ((w.Types a).Embeds ≠ none → (w.Types a).Instance ≠ none → st2 a ≠ none)) ∧
    (AcyclicFrom w a →
      ∃ n, ∀ m, n ≤ m → ∃ st2, HasEmbed w m st a a = some (st2, true)) := by
  have hc := computed_canon w hst
  refine ⟨?_, ?_⟩
  · intro n st2 b h
    obtain ⟨⟨k, hk⟩, hb, _, h1, _⟩ := hasEmbed_spec w hc h
    refine ⟨by rw [hb]; exact hasEmbedValue_self w _ a, h1 ha, ?_⟩
    intro he hi h0
    obtain ⟨embeds, hemb⟩ := Option.ne_none_iff_exists'.mp he
    obtain ⟨v, hv⟩ := Option.ne_none_iff_exists'.mp hi
    have hrt : ReflectType w a = some (w.ElemTypeOf v) := by simp [ReflectType, hv]
    have ht : embedTargets w a = some (embeds.Order.filterMap (resolveEmbed w (w.ElemTypeOf v))) := by
      simp only [embedTargets, hemb, hrt]
    cases k with
    | zero => simp [closure] at hk
    | succ k =>
      rw [closure_succ, ht, h0] at hk
      simp at hk
  · intro hac
    exact (hasEmbed_self w st a hst).2 (Or.inr (Or.inr (Or.inr hac)))

/-- C8, witness: in the chain example `HasEmbed(A, A)` from absent closures returns
true at every sufficient recursion depth. -/
theorem hasEmbed_self_runs_compile_witness :
    ∃ n, ∀ m, n ≤ m → ∃ st2, HasEmbed chainWorld m freshStore 0 0 = some (st2, true) :=
  (hasEmbed_self_runs_compile chainWorld freshStore 0 Computed.fresh rfl).2 (chain_acyclic 0)

/-- C9: when no embed cycle lies below `a`, in a store the code has produced,
`CompileEmbeds` on `a` completes at every sufficient recursion depth, and a second
run on the store it leaves completes and leaves that same store: the closure of `a`
and of every other type is the one the first run produced. -/
theorem compileEmbeds_twice_same (w : World) (st : Store) (a : Ptr)
    (hac : AcyclicFrom w a) (hst : Computed w st) :
    ∃ n, ∀ m, n ≤ m → ∃ st1, CompileEmbeds w m st a = some st1 ∧
      CompileEmbeds w m st1 a = some st1 := by
  have hc := computed_canon w hst
  obtain ⟨n, v, hv⟩ := closure_of_acyclic w a hac
  refine ⟨n, fun m hm => ?_⟩
  have hvm := closure_mono_le w hm a v hv
  obtain ⟨st1, h1, _⟩ := compileEmbeds_total w hc hvm
  obtain ⟨_, hf1, hc1⟩ := compileEmbeds_spec w hc h1
  obtain ⟨st2, h2, _⟩ := compileEmbeds_total w hc1 hvm
  obtain ⟨_, hf2, _⟩ := compileEmbeds_spec w hc1 h2
  have heq : st2 = st1 := by
    funext q
    rcases hf2.1 q with h | h
    · exact h
    · obtain ⟨k2, hk2⟩ := hf2.2 q h
      obtain ⟨k1, hk1⟩ := hf1.2 q h
      exact closure_unique w hk2 hk1
  rw [heq] at h2
  exact ⟨st1, h1, h2⟩

/-- C9, witness: in the chain example a second `CompileEmbeds` on `A` leaves the
store of the first. -/
theorem compileEmbeds_twice_same_witness :
    ∃ n, ∀ m, n ≤ m → ∃ st1, CompileEmbeds chainWorld m freshStore 0 = some st1 ∧
      CompileEmbeds chainWorld m st1 0 = some st1 :=
  compileEmbeds_twice_same chainWorld freshStore 0 (chain_acyclic 0) Computed.fresh

/-! ## `Lookup`: the bound on the passes is never reached -/

theorem skipSpaces_length_le : ∀ l : List Char, (skipSpaces l).length ≤ l.length := by
  intro l
  induction l with
  | nil => simp [skipSpaces]
  | cons c cs ih =>
    simp only [skipSpaces]
    split
    · exact Nat.le_succ_of_le ih
    · exact Nat.le_refl _

theorem scanKey_snd_length_le : ∀ l : List Char, (scanKey l).2.length ≤ l.length := by
  intro l
  induction l with
  | nil => simp [scanKey]
  | cons c cs ih =>
    simp only [scanKey]
    split
    · exact Nat.le_succ_of_le ih
    · exact Nat.le_refl _

theorem scanQuoted_cons (c : Char) (cs : List Char) :
    scanQuoted (c :: cs) =
      if c = '"' then some ([], cs)
      else if c = '\\' then
        match cs with
        | [] => none
        | d :: ds =>
          match scanQuoted ds with
          | none => none
          | some (body, rest) => some (c :: d :: body, rest)
      else
        match scanQuoted cs with
        | none => none
        | some (body, rest) => some (c :: body, rest) := by
  cases cs <;> rfl

theorem scanQuoted_length_le_bound :
    ∀ (k : Nat) (l body rest : List Char), l.length ≤ k →
      scanQuoted l = some (body, rest) → rest.length < l.length := by
  intro k
  induction k with
  | zero =>
    intro l body rest hk h
    have hl : l = [] := List.length_eq_zero.mp (Nat.le_zero.mp hk)
    subst hl
    simp [scanQuoted] at h
  | succ k ih =>
    intro l body rest hk h
    cases l with
    | nil => simp [scanQuoted] at h
    | cons c cs =>
      have hcs : cs.length ≤ k := Nat.le_of_succ_le_succ hk
      rw [scanQuoted_cons] at h
      by_cases hc : c = '"'
      · simp only [hc, if_true, Option.some.injEq, Prod.mk.injEq] at h
        rw [← h.2]
        exact Nat.lt_succ_self _
      · simp only [hc, if_false] at h
        by_cases hb : c = '\\'
        · simp only [hb, if_true] at h
          cases cs with
          | nil => simp at h
          | cons d ds =>
            simp only at h
            cases hq : scanQuoted ds with
            | none => simp [hq] at h
            | some r =>
              obtain ⟨b2, r2⟩ := r
              simp only [hq, Option.some.injEq, Prod.mk.injEq] at h
              have := ih ds b2 r2 (Nat.le_of_succ_le hcs) hq
              rw [← h.2]
              simp only [List.length_cons]
              omega
        · simp only [hb, if_false] at h
          cases hq : scanQuoted cs with
          | none => simp [hq] at h
          | some r =>
            obtain ⟨b2, r2⟩ := r
            simp only [hq, Option.some.injEq, Prod.mk.injEq] at h
            have := ih cs b2 r2 hcs hq
            rw [← h.2]
            simp only [List.length_cons]
            omega

theorem scanQuoted_length_lt (l body rest : List Char)
    (h : scanQuoted l = some (body, rest)) : rest.length < l.length :=
  scanQuoted_length_le_bound l.length l body rest (Nat.le_refl _) h

/-- Every pass of the loop of `Lookup` shortens the tag. -/
theorem scanPair_length_lt (tag name body rest : List Char)
    (h : scanPair tag = some (name, body, rest)) : rest.length < tag.length := by
  unfold scanPair at h
  have hsk := skipSpaces_length_le tag
  cases hs : skipSpaces tag with
  | nil => simp [hs] at h
  | cons c cs =>
    rw [hs] at hsk
    simp only [hs] at h
    have hkey := scanKey_snd_length_le (c :: cs)
    cases hrest : (scanKey (c :: cs)).2 with
    | nil => simp [hrest] at h
    | cons c1 r1 =>
      cases r1 with
      | nil => simp [hrest] at h
      | cons c2 r2 =>
        rw [hrest] at hkey
        simp only [hrest] at h
        split at h
        · cases hq : scanQuoted r2 with
          | none => simp [hq] at h
          | some r =>
            obtain ⟨b3, r3⟩ := r
            simp only [hq, Option.some.injEq, Prod.mk.injEq] at h
            have hlt := scanQuoted_length_lt r2 b3 r3 hq
            rw [← h.2.2]
            simp only [List.length_cons] at hkey hsk
            omega
        · cases h

/-- The loop of `Lookup` gives the same result for every bound above the length of
the tag: the bound in `Lookup` is never what ends the loop. -/
theorem lookupLoop_bound (esc : List Char → Option (List Char)) (key : List Char) :
    ∀ (n m : Nat) (tag : List Char), tag.length < n → tag.length < m →
      lookupLoop esc key n tag = lookupLoop esc key m tag := by
  intro n
  induction n with
  | zero => intro m tag h; exact absurd h (Nat.not_lt_zero _)
  | succ n ih =>
    intro m tag hn hm
    cases m with
    | zero => exact absurd hm (Nat.not_lt_zero _)
    | succ m =>
      unfold lookupLoop
      cases hp : scanPair tag with
      | none => rfl
      | some r =>
        obtain ⟨name, body, rest⟩ := r
        have hlt := scanPair_length_lt tag name body rest hp
        simp only
        split
        · rfl
        · exact ih m rest (by omega) (by omega)

/-! ## C10: the fields that get a setter -/

theorem setterFieldsDo_eq (esc : List Char → Option (List Char)) :
    ∀ (l : List KeyVal) (res : List Field),
      setterFieldsDo esc res l
        = res ++ (l.map (fun kv => kv.Val)).filter (hasSetter esc) := by
  intro l
  induction l with
  | nil => intro res; simp [setterFieldsDo]
  | cons kv rest ih =>
    intro res
    cases h : hasSetter esc kv.Val with
    | true => simp [setterFieldsDo, h, ih, List.filter_cons]
    | false => simp [setterFieldsDo, h, ih, List.filter_cons]

theorem setterFields_eq (esc : List Char → Option (List Char)) (typ : GenType)
    (fields embedded : Fields) (hf : typ.Fields = some fields)
    (he : typ.EmbeddedFields = some embedded) :
    SetterFields esc typ
      = some ((fieldVals fields).filter (hasSetter esc)
          ++ (fieldVals embedded).filter (hasSetter esc)) := by
  simp [SetterFields, hf, he, setterFieldsDo_eq, fieldVals]

/-- The tags of `Person` evaluated: every declared and every embedded field gets a
setter, `Age` with its tag `json:"-"` included. -/
theorem setterFields_person :
    (SetterFields exEsc personType).map (fun l => l.map (fun f => f.Name))
      = some ["Name", "Age", "Type", "R", "G", "B", "A"] := by
  decide

/-- Fields tagged `set:"-"` get no setter, declared or embedded. -/
theorem setterFields_optOut :
    (SetterFields exEsc optOutType).map (fun l => l.map (fun f => f.Name))
      = some ["Name", "Shown"] := by
  decide

/-- C10: for a type whose two field maps are present, `SetterFields` returns a list
that holds a field exactly when the field is in `Fields` or `EmbeddedFields` and
`Tag.Get("set")` is not `-`; a field without a `set` key is in it, and the tag
`json:"-"` has no `set` key; the length of the list is the number of declared fields
not opted out plus the number of embedded fields not opted out. -/
theorem setterFields_spec (esc : List Char → Option (List Char)) (typ : GenType)
    (fields embedded : Fields) (hf : typ.Fields = some fields)
    (he : typ.EmbeddedFields = some embedded) :
    ∃ res, SetterFields esc typ = some res ∧
      (∀ f, f ∈ res ↔
        (f ∈ fieldVals fields ∨ f ∈ fieldVals embedded) ∧ Get esc f.Tag "set" ≠ "-") ∧
      (∀ f, f ∈ fieldVals fields ∨ f ∈ fieldVals embedded →
        Lookup esc f.Tag "set" = none → f ∈ res) ∧
      Lookup esc "json:\"-\"" "set" = none ∧
      res.length
        = (fieldVals fields).countP (fun f => decide (Get esc f.Tag "set" ≠ "-"))
          + (fieldVals embedded).countP (fun f => decide (Get esc f.Tag "set" ≠ "-")) := by
  refine ⟨_, setterFields_eq esc typ fields embedded hf he, ?_, ?_, rfl, ?_⟩
  · intro f
    simp only [List.mem_append, List.mem_filter, hasSetter, decide_eq_true_eq]
    tauto
  · intro f hmem hno
    have hget : Get esc f.Tag "set" ≠ "-" := by
      simp only [Get, hno]
      decide
    simp only [List.mem_append, List.mem_filter, hasSetter, decide_eq_true_eq]
    tauto
  · simp only [List.length_append, List.countP_eq_length_filter]
    rfl

/-- C10, witness: the type `Person` of the test data. -/
theorem setterFields_spec_witness :
    ∃ res, SetterFields exEsc personType = some res ∧
      (∀ f, f ∈ res ↔
        (f ∈ fieldVals ⟨[
            ⟨"Name", ⟨"Name", "string", "Name is the name of the person", ""⟩⟩,
            ⟨"Age", ⟨"Age", "int", "Age is the age of the person", "json:\"-\""⟩⟩,
            ⟨"Type", ⟨"Type", "*gti.Type", "Type is the type of the person", ""⟩⟩]⟩ ∨
          f ∈ fieldVals ⟨[
            ⟨"R", ⟨"R", "uint8", "", ""⟩⟩,
            ⟨"G", ⟨"G", "uint8", "", ""⟩⟩,
            ⟨"B", ⟨"B", "uint8", "", ""⟩⟩,
            ⟨"A", ⟨"A", "uint8", "", ""⟩⟩]⟩) ∧ Get exEsc f.Tag "set" ≠ "-") ∧
      res.length = 7 := by
  obtain ⟨res, hres, hiff, _, _, hlen⟩ :=
    setterFields_spec exEsc personType _ _ rfl rfl
  exact ⟨res, hres, hiff, hlen.trans (by decide)⟩

/-! ## C11, C12, C20: the order of the setters and their names -/

theorem upper_ne_dash (v : Char) (h : isLow v = true) :
    Char.ofNat (v.toNat + 65 - 97) ≠ '-' := by
  simp only [isLow, Bool.and_eq_true, decide_eq_true_eq] at h
  obtain ⟨h1, h2⟩ := h
  generalize v.toNat = k at h1 h2
  interval_cases k <;> decide

theorem lower_ne_dash (v : Char) (h : isCap v = true) :
    Char.ofNat (v.toNat + 97 - 65) ≠ '-' := by
  simp only [isCap, Bool.and_eq_true, decide_eq_true_eq] at h
  obtain ⟨h1, h2⟩ := h
  generalize v.toNat = k at h1 h2
  interval_cases k <;> decide

theorem written_ne_dash (v : Char) (h : (isCap v || isLow v || isNum v) = true) :
    v ≠ '-' := by
  rintro rfl
  revert h
  decide

/-- The loop of `toCamelInitCase` writes no `-`. -/
theorem camelLoop_no_dash (hasAcronym : Bool) :
    ∀ (l : List Char) (capNext prevIsCap first : Bool),
      ∀ c ∈ camelLoop hasAcronym capNext prevIsCap first l, c ≠ '-' := by
  intro l
  induction l with
  | nil => intro _ _ _ c hc; simp [camelLoop] at hc
  | cons v rest ih =>
    intro capNext prevIsCap first c hc
    have hw : (isCap v || isLow v || isNum v) = true →
        (if capNext then (if isLow v then Char.ofNat (v.toNat + 65 - 97) else v)
          else if first then (if isCap v then Char.ofNat (v.toNat + 97 - 65) else v)
          else if prevIsCap && isCap v && !hasAcronym then Char.ofNat (v.toNat + 97 - 65)
          else v) ≠ '-' := by
      intro hv
      split
      · split
        · next hl => exact upper_ne_dash v hl
        · exact written_ne_dash v hv
      · split
        · split
          · next hcap => exact lower_ne_dash v hcap
          · exact written_ne_dash v hv
        · split
          · next hcond =>
            simp only [Bool.and_eq_true] at hcond
            exact lower_ne_dash v hcond.1.2
          · exact written_ne_dash v hv
    simp only [camelLoop] at hc
    split at hc
    · next hletter =>
      rcases List.mem_cons.mp hc with rfl | hin
      · exact hw (by simp [hletter])
      · exact ih _ _ _ c hin
    · split at hc
      · next hnum =>
        rcases List.mem_cons.mp hc with rfl | hin
        · exact hw (by simp [hnum])
        · exact ih _ _ _ c hin
      · exact ih _ _ _ c hc

/-- The function `strcase.ToCamel` never returns `-`. -/
theorem toCamel_ne_dash (acr : String → Option String) (s : String) :
    ToCamel acr s ≠ "-" := by
  unfold ToCamel
  cases TrimSpace s.data with
  | nil =>
    simp only
    decide
  | cons c cs =>
    simp only
    cases acr (String.mk (c :: cs)) with
    | some a =>
      intro h
      have hd : camelLoop true true false true a.data = ['-'] := by
        have := congrArg String.data h
        simpa using this
      exact camelLoop_no_dash true a.data true false true '-' (by rw [hd]; simp) rfl
    | none =>
      intro h
      have hd : camelLoop false true false true (c :: cs) = ['-'] := by
        have := congrArg String.data h
        simpa using this
      exact camelLoop_no_dash false (c :: cs) true false true '-' (by rw [hd]; simp) rfl

/-- C11: for a type whose two field maps are present, `SetterFields` returns the
declared fields that are not opted out, in the order of `Fields.Order`, followed by
the embedded fields that are not opted out, in the order of `EmbeddedFields.Order`;
the result is a subsequence of the values of `Fields.Order` followed by those of
`EmbeddedFields.Order`, and it is the same for every type with the same two maps. -/
theorem setterFields_order (esc : List Char → Option (List Char)) (typ : GenType)
    (fields embedded : Fields) (hf : typ.Fields = some fields)
    (he : typ.EmbeddedFields = some embedded) :
    ∃ res, SetterFields esc typ = some res ∧
      res = (fieldVals fields).filter (fun f => decide (Get esc f.Tag "set" ≠ "-"))
          ++ (fieldVals embedded).filter (fun f => decide (Get esc f.Tag "set" ≠ "-")) ∧
      List.Sublist res (fieldVals fields ++ fieldVals embedded) ∧
      (∀ typ2 : GenType, typ2.Fields = typ.Fields →
        typ2.EmbeddedFields = typ.EmbeddedFields → SetterFields esc typ2 = some res) := by
  refine ⟨_, setterFields_eq esc typ fields embedded hf he, rfl, ?_, ?_⟩
  · exact List.Sublist.append (List.filter_sublist _) (List.filter_sublist _)
  · intro typ2 h1 h2
    exact setterFields_eq esc typ2 fields embedded (h1.trans hf) (h2.trans he)

/-- C11, witness: the setters of `Person` come in the order `Name`, `Age`, `Type`,
then `R`, `G`, `B`, `A`. -/
theorem setterFields_order_witness :
    ∃ res, SetterFields exEsc personType = some res ∧
      res.map (fun f => f.Name) = ["Name", "Age", "Type", "R", "G", "B", "A"] := by
  obtain ⟨res, hres, heq, _, _⟩ := setterFields_order exEsc personType _ _ rfl rfl
  refine ⟨res, hres, ?_⟩
  rw [heq]
  decide

/-- C12: when `Lookup` finds a `set` key in the tag of the field, `SetterName`
returns the value of the key as it is; otherwise it returns `strcase.ToCamel` of the
name of the field.  So the field `label` tagged `set:"myTitle"` gets the name
`myTitle`, and the untagged field `user_name` gets `UserName`. -/
theorem setterName_spec (esc : List Char → Option (List Char)) (camel : String → String)
    (f : Field) :
    (∀ v, Lookup esc f.Tag "set" = some v → SetterName esc camel f = v) ∧
    (Lookup esc f.Tag "set" = none → SetterName esc camel f = camel f.Name) ∧
    SetterName exEsc (ToCamel exAcr) ⟨"label", "string", "", "set:\"myTitle\""⟩ = "myTitle" ∧
    SetterName exEsc (ToCamel exAcr) ⟨"user_name", "string", "", "json:\"user\""⟩
      = "UserName" := by
  refine ⟨?_, ?_, by decide, by decide⟩
  · intro v hv
    simp only [SetterName, hv]
  · intro hv
    simp only [SetterName, hv]

/-- Whatever the camel-casing function, a field with a setter whose tag has a `set`
key is not named `-` by that key. -/
theorem lookup_ne_dash_of_hasSetter (esc : List Char → Option (List Char)) (f : Field)
    (h : hasSetter esc f = true) (v : String) (hv : Lookup esc f.Tag "set" = some v) :
    v ≠ "-" := by
  simp only [hasSetter, Get, hv, decide_eq_true_eq] at h
  exact h

/-- C20: for a type whose two field maps are present, no field in the result of
`SetterFields` gets the setter name `-`: when its tag has a `set` key the value of
the key is not `-`, and `strcase.ToCamel` of a name is never `-`. -/
theorem setterName_ne_optOut (esc : List Char → Option (List Char))
    (acr : String → Option String) (typ : GenType) (fields embedded : Fields)
    (hf : typ.Fields = some fields) (he : typ.EmbeddedFields = some embedded) :
    ∃ res, SetterFields esc typ = some res ∧ ∀ f ∈ res,
      (∀ v, Lookup esc f.Tag "set" = some v → v ≠ "-") ∧
      ToCamel acr f.Name ≠ "-" ∧
      SetterName esc (ToCamel acr) f ≠ "-" := by
  refine ⟨_, setterFields_eq esc typ fields embedded hf he, ?_⟩
  intro f hmem
  have hs : hasSetter esc f = true := by
    rcases List.mem_append.mp hmem with h | h
    · exact (List.mem_filter.mp h).2
    · exact (List.mem_filter.mp h).2
  refine ⟨lookup_ne_dash_of_hasSetter esc f hs, toCamel_ne_dash acr f.Name, ?_⟩
  cases hv : Lookup esc f.Tag "set" with
  | some v =>
    simp only [SetterName, hv]
    exact lookup_ne_dash_of_hasSetter esc f hs v hv
  | none =>
    simp only [SetterName, hv]
    exact toCamel_ne_dash acr f.Name

/-- C20, witness: the setter names of the type with a renamed field. -/
theorem setterName_ne_optOut_witness :
    ∃ res, SetterFields exEsc renameType = some res ∧
      res.map (SetterName exEsc (ToCamel exAcr)) = ["myTitle", "UserName"] ∧
      ∀ f ∈ res, SetterName exEsc (ToCamel exAcr) f ≠ "-" := by
  obtain ⟨res, hres, hall⟩ := setterName_ne_optOut exEsc exAcr renameType _ _ rfl rfl
  refine ⟨res, hres, ?_, fun f hf => (hall f hf).2.2⟩
  have h2 : SetterFields exEsc renameType
      = some ((fieldVals ⟨[
          ⟨"label", ⟨"label", "string", "", "set:\"myTitle\""⟩⟩,
          ⟨"user_name", ⟨"user_name", "string", "", "json:\"user\""⟩⟩]⟩).filter
            (hasSetter exEsc) ++ (fieldVals ⟨[]⟩).filter (hasSetter exEsc)) :=
    setterFields_eq exEsc renameType _ _ rfl rfl
  rw [h2] at hres
  rw [← Option.some.inj hres]
  decide

/-! ## C16: doc strings as comments -/

theorem splitLines_cons_of_ne (c : Char) (cs : List Char) (hc : c ≠ '\n') :
    ∃ l ls, splitLines cs = l :: ls ∧ splitLines (c :: cs) = (c :: l) :: ls := by
  cases h : splitLines cs with
  | nil =>
    exfalso
    cases cs with
    | nil => simp [splitLines] at h
    | cons d ds =>
      simp only [splitLines] at h
      split at h
      · cases h
      · split at h <;> cases h
  | cons l ls => exact ⟨l, ls, rfl, by simp [splitLines, hc, h]⟩

theorem splitLines_ne_nil (cs : List Char) : ∃ l ls, splitLines cs = l :: ls := by
  cases cs with
  | nil => exact ⟨[], [], rfl⟩
  | cons c cs =>
    by_cases hc : c = '\n'
    · exact ⟨[], splitLines cs, by simp [splitLines, hc]⟩
    · obtain ⟨l, ls, _, h⟩ := splitLines_cons_of_ne c cs hc
      exact ⟨_, _, h⟩

theorem joinLines_splitLines : ∀ cs : List Char, joinLines (splitLines cs) = cs := by
  intro cs
  induction cs with
  | nil => rfl
  | cons c cs ih =>
    by_cases hc : c = '\n'
    · obtain ⟨l, ls, h⟩ := splitLines_ne_nil cs
      simp only [splitLines, hc, if_true, h, joinLines, List.nil_append]
      rw [h] at ih
      rw [ih]
    · obtain ⟨l, ls, h1, h2⟩ := splitLines_cons_of_ne c cs hc
      rw [h2]
      rw [h1] at ih
      cases ls with
      | nil =>
        simp only [joinLines] at ih ⊢
        rw [ih]
      | cons l2 ls2 =>
        simp only [joinLines] at ih ⊢
        rw [← ih]
        rfl

/-- The lines of the replaced text are the lines of the text, each but the first
with `// ` in front. -/
theorem splitLines_replaceNewlines : ∀ cs : List Char,
    ∃ l ls, splitLines cs = l :: ls ∧
      splitLines (replaceNewlines cs)
        = l :: ls.map (fun x => '/' :: '/' :: ' ' :: x) := by
  intro cs
  induction cs with
  | nil => exact ⟨[], [], rfl, rfl⟩
  | cons c cs ih =>
    obtain ⟨l, ls, h1, h2⟩ := ih
    by_cases hc : c = '\n'
    · refine ⟨[], l :: ls, by simp [splitLines, hc, h1], ?_⟩
      simp only [replaceNewlines, hc, if_true]
      have e1 : splitLines ('\n' :: '/' :: '/' :: ' ' :: replaceNewlines cs)
          = [] :: splitLines ('/' :: '/' :: ' ' :: replaceNewlines cs) := by
        simp [splitLines]
      have e2 : splitLines ('/' :: '/' :: ' ' :: replaceNewlines cs)
          = ('/' :: '/' :: ' ' :: l) :: ls.map (fun x => '/' :: '/' :: ' ' :: x) := by
        have hs : ∀ (d : Char) (xs x : List Char) (r : List (List Char)), d ≠ '\n' →
            splitLines xs = x :: r → splitLines (d :: xs) = (d :: x) :: r := by
          intro d xs x r hd hx
          simp [splitLines, hd, hx]
        exact hs _ _ _ _ (by decide) (hs _ _ _ _ (by decide) (hs _ _ _ _ (by decide) h2))
      rw [e1, e2]
      rfl
    · refine ⟨c :: l, ls, by simp [splitLines, hc, h1], ?_⟩
      simp only [replaceNewlines, hc, if_false]
      simp [splitLines, hc, h2]

theorem splitLines_docToComment (doc : String) :
    splitLines (DocToComment doc).data
      = (splitLines doc.data).map (fun x => '/' :: '/' :: ' ' :: x) := by
  obtain ⟨l, ls, h1, h2⟩ := splitLines_replaceNewlines doc.data
  have hs : ∀ (d : Char) (xs x : List Char) (r : List (List Char)), d ≠ '\n' →
      splitLines xs = x :: r → splitLines (d :: xs) = (d :: x) :: r := by
    intro d xs x r hd hx
    simp [splitLines, hd, hx]
  simp only [DocToComment]
  rw [hs _ _ _ _ (by decide) (hs _ _ _ _ (by decide) (hs _ _ _ _ (by decide) h2)), h1]
  rfl

/-- C16: the comment that `DocToComment` makes of a doc string has as many lines as
the doc string, each of its lines starts with `// `, the lines without these three
characters are the lines of the doc string, which joined give the doc string back;
and the comment of the empty doc string is `// `. -/
theorem docToComment_spec (doc : String) :
    (splitLines (DocToComment doc).data).length = (splitLines doc.data).length ∧
    (∀ line ∈ splitLines (DocToComment doc).data, line.take 3 = ['/', '/', ' ']) ∧
    (splitLines (DocToComment doc).data).map (List.drop 3) = splitLines doc.data ∧
    joinLines ((splitLines (DocToComment doc).data).map (List.drop 3)) = doc.data ∧
    DocToComment "" = "// " := by
  have h := splitLines_docToComment doc
  have hdrop : (splitLines (DocToComment doc).data).map (List.drop 3)
      = splitLines doc.data := by
    rw [h, List.map_map]
    conv_rhs => rw [← List.map_id (splitLines doc.data)]
    rfl
  refine ⟨by rw [h, List.length_map], ?_, hdrop, ?_, by decide⟩
  · intro line hl
    rw [h] at hl
    obtain ⟨x, _, rfl⟩ := List.mem_map.mp hl
    rfl
  · rw [hdrop, joinLines_splitLines]

/-- A doc string of two lines. -/
theorem docToComment_two_lines :
    DocToComment "Person represents a person.\nThe zero value is not valid."
      = "// Person represents a person.\n// The zero value is not valid." := by
  decide


/-! ## C17, C18: types without an instance, and the keys of the closure -/

theorem embedTargets_no_instance (w : World) (tp : Ptr)
    (hi : (w.Types tp).Instance = none) : embedTargets w tp = none := by
  unfold embedTargets
  cases (w.Types tp).Embeds with
  | none => rfl
  | some embeds => simp [ReflectType, hi]

/-- C17: for a type without an instance, in a store the code has produced, no embed
resolves, the closure is absent, and every query `HasEmbed(tp, x)` leaves the store
as it is and returns `x == tp`, whatever `Embeds` the type declares. -/
theorem hasEmbed_no_instance (w : World) (st : Store) (tp : Ptr)
    (hst : Computed w st) (hi : (w.Types tp).Instance = none) :
    (∀ q, ¬ DirectEmbed w tp q) ∧ st tp = none ∧
    ∀ n x, HasEmbed w (n + 1) st tp x = some (st, decide (x = tp)) := by
  have ht := embedTargets_no_instance w tp hi
  have hs : st tp = none := canon_leafClean w (computed_canon w hst) tp ht
  refine ⟨?_, hs, ?_⟩
  · rintro q ⟨l, hl, _⟩
    rw [ht] at hl
    cases hl
  · intro n x
    have hrt : ReflectType w tp = none := by simp [ReflectType, hi]
    cases he : (w.Types tp).Embeds with
    | none => simp only [HasEmbed, hs, CompileEmbeds, he]
    | some embeds => simp only [HasEmbed, hs, CompileEmbeds, he, hrt]


/-- C17, witness: `A` declares the registered embed `B` and has no instance;
`HasEmbed(A, x)` leaves the closure of `A` absent and returns `x == A`, false for
`B`. -/
theorem hasEmbed_no_instance_witness :
    (noInstanceWorld.Types 0).Embeds = some ⟨[exEmbed "B"]⟩ ∧ freshStore 0 = none ∧
      (∀ n x, HasEmbed noInstanceWorld (n + 1) freshStore 0 x
        = some (freshStore, decide (x = 0))) ∧
      HasEmbed noInstanceWorld 1 freshStore 0 1 = some (freshStore, false) := by
  have h := hasEmbed_no_instance noInstanceWorld freshStore 0 Computed.fresh rfl
  exact ⟨rfl, h.2.1, h.2.2, h.2.2 0 1⟩

/-- Every entry of a closure in a canonical store sits under the ID of its type,
and its type is one that `TypeByName` returns. -/
theorem canon_keys (w : World) {st : Store} (hc : Canon w st) (q : Ptr) (cm : EmbedMap)
    (hq : st q = some cm) (id : Nat) (t : Ptr) (ht : cm id = some t) :
    (w.Types t).ID = id ∧ ∃ name, w.TypeByName name = some t := by
  rcases hc q with h | ⟨k, hk⟩
  · rw [hq] at h
    cases h
  · rw [hq] at hk
    obtain ⟨hr, hid⟩ := closure_sound w k q cm hk id t ht
    obtain ⟨r, _, hE⟩ := Relation.TransGen.tail'_iff.mp hr
    exact ⟨hid, directEmbed_registered w hE⟩

/-- C18: when no embed cycle lies below `tp`, in a store the code has produced,
`CompileEmbeds` on `tp` completes at every sufficient recursion depth; and after
every completed `CompileEmbeds`, each entry `id -> t` of each closure in the store
(that of `tp`, of every type reached, of any other type) has `t.ID = id` and `t` is
a record that `TypeByName` returns. -/
theorem compileEmbeds_keys (w : World) (st : Store) (tp : Ptr)
    (hac : AcyclicFrom w tp) (hst : Computed w st) :
    (∃ n, ∀ m, n ≤ m → ∃ st2, CompileEmbeds w m st tp = some st2) ∧
    (∀ n st2, CompileEmbeds w n st tp = some st2 →
      ∀ q cm, st2 q = some cm → ∀ id t, cm id = some t →
        (w.Types t).ID = id ∧ ∃ name, w.TypeByName name = some t) := by
  have hc := computed_canon w hst
  refine ⟨?_, ?_⟩
  · obtain ⟨n, v, hv⟩ := closure_of_acyclic w tp hac
    refine ⟨n, fun m hm => ?_⟩
    obtain ⟨st2, h2, _⟩ := compileEmbeds_total w hc (closure_mono_le w hm tp v hv)
    exact ⟨st2, h2⟩
  · intro n st2 h q cm hq id t ht
    exact canon_keys w (compileEmbeds_spec w hc h).2.2 q cm hq id t ht

/-- C18, witness: the chain `A`, `B`, `C`. -/
theorem compileEmbeds_keys_witness :
    (∃ n, ∀ m, n ≤ m → ∃ st2, CompileEmbeds chainWorld m freshStore 0 = some st2) ∧
    (∀ n st2, CompileEmbeds chainWorld n freshStore 0 = some st2 →
      ∀ q cm, st2 q = some cm → ∀ id t, cm id = some t →
        (chainWorld.Types t).ID = id ∧ ∃ name, chainWorld.TypeByName name = some t) :=
  compileEmbeds_keys chainWorld freshStore 0 (chain_acyclic 0) Computed.fresh

/-! ## C19: the order of the embeds -/

theorem resolveEmbed_perm (w w2 : World) (hp : EmbedsPermuted w w2) (rt : RType)
    (em : KeyVal) : resolveEmbed w2 rt em = resolveEmbed w rt em := by
  obtain ⟨_, h2, h3, h4, _⟩ := hp
  simp only [resolveEmbed, h2, h3, h4]

theorem reflectType_perm (w w2 : World) (hp : EmbedsPermuted w w2) (p : Ptr) :
    ReflectType w2 p = ReflectType w p := by
  obtain ⟨h1, _, _, _, h5⟩ := hp
  simp only [ReflectType, (h5 p).2.2.1, h1]

/-- Permuting the embeds permutes the list of resolved embeds. -/
theorem embedTargets_perm (w w2 : World) (hp : EmbedsPermuted w w2) (p : Ptr) :
    (embedTargets w p = none ∧ embedTargets w2 p = none) ∨
    ∃ l l2, embedTargets w p = some l ∧ embedTargets w2 p = some l2 ∧ l.Perm l2 := by
  have hrt := reflectType_perm w w2 hp p
  have hres : resolveEmbed w2 = resolveEmbed w := by
    funext rt em
    exact resolveEmbed_perm w w2 hp rt em
  rcases (hp.2.2.2.2 p).2.2.2 with ⟨h1, h2⟩ | ⟨e, e2, h1, h2, hperm⟩
  · left
    simp [embedTargets, h1, h2]
  · cases hr : ReflectType w p with
    | none =>
      left
      simp [embedTargets, h1, h2, hrt, hr]
    | some rt =>
      right
      refine ⟨e.Order.filterMap (resolveEmbed w rt), e2.Order.filterMap (resolveEmbed w2 rt),
        by simp [embedTargets, h1, hr], by simp [embedTargets, h2, hrt, hr], ?_⟩
      rw [hres]
      exact hperm.filterMap _

theorem directEmbed_perm (w w2 : World) (hp : EmbedsPermuted w w2) (p q : Ptr) :
    DirectEmbed w2 p q ↔ DirectEmbed w p q := by
  rcases embedTargets_perm w w2 hp p with ⟨h1, h2⟩ | ⟨l, l2, h1, h2, hperm⟩
  · constructor
    · rintro ⟨l, hl, _⟩
      rw [h2] at hl
      cases hl
    · rintro ⟨l, hl, _⟩
      rw [h1] at hl
      cases hl
  · constructor
    · rintro ⟨l3, hl, hq⟩
      rw [h2] at hl
      cases hl
      exact ⟨l, h1, hperm.mem_iff.mpr hq⟩
    · rintro ⟨l3, hl, hq⟩
      rw [h1] at hl
      cases hl
      exact ⟨l2, h2, hperm.mem_iff.mp hq⟩

theorem reaches_perm (w w2 : World) (hp : EmbedsPermuted w w2) (p q : Ptr) :
    Reaches w2 p q ↔ Reaches w p q := by
  constructor
  · intro h
    exact Relation.TransGen.mono (fun a b hab => (directEmbed_perm w w2 hp a b).mp hab) h
  · intro h
    exact Relation.TransGen.mono (fun a b hab => (directEmbed_perm w w2 hp a b).mpr hab) h

theorem distinctIDs_perm (w w2 : World) (hp : EmbedsPermuted w w2) (hid : DistinctIDs w) :
    DistinctIDs w2 := by
  intro p q n1 n2 h1 h2 h3
  rw [hp.2.2.2.1] at h1 h2
  rw [(hp.2.2.2.2 p).2.1, (hp.2.2.2.2 q).2.1] at h3
  exact hid p q n1 n2 h1 h2 h3

theorem closure_value_perm (w w2 : World) (hp : EmbedsPermuted w w2) (hid : DistinctIDs w)
    {n n2 : Nat} {p : Ptr} {v v2 : Option EmbedMap}
    (h : closure w n p = some v) (h2 : closure w2 n2 p = some v2) : v2 = v := by
  cases n with
  | zero => simp [closure] at h
  | succ n =>
    cases n2 with
    | zero => simp [closure] at h2
    | succ n2 =>
      rcases embedTargets_perm w w2 hp p with ⟨e1, e2⟩ | ⟨l, l2, e1, e2, _⟩
      · rw [closure_succ, e1] at h
        rw [closure_succ, e2] at h2
        rw [← Option.some.inj h, ← Option.some.inj h2]
      · have h' := h
        have h2' := h2
        rw [closure_succ, e1] at h'
        rw [closure_succ, e2] at h2'
        simp only [Option.map_eq_some'] at h' h2'
        obtain ⟨m, _, hm⟩ := h'
        obtain ⟨m2, _, hm2⟩ := h2'
        subst hm
        subst hm2
        congr 1
        funext k
        apply Option.ext
        intro q
        simp only [Option.mem_def]
        rw [closure_char w2 (distinctIDs_perm w w2 hp hid) h2 k q, closure_char w hid h k q,
          reaches_perm w w2 hp p q, (hp.2.2.2.2 q).2.1]

/-- Permuting the embeds leaves the closure function as it is. -/
theorem closure_perm (w w2 : World) (hp : EmbedsPermuted w w2) (hid : DistinctIDs w) :
    ∀ (n : Nat) (p : Ptr) (v : Option EmbedMap),
      closure w n p = some v → closure w2 n p = some v := by
  intro n
  induction n with
  | zero => intro p v h; simp [closure] at h
  | succ n ih =>
    intro p v h
    have hdef : ∃ v2, closure w2 (n + 1) p = some v2 := by
      rcases embedTargets_perm w w2 hp p with ⟨_, e2⟩ | ⟨l, l2, e1, e2, hperm⟩
      · exact ⟨none, by rw [closure_succ, e2]⟩
      · have h' := h
        rw [closure_succ, e1] at h'
        simp only [Option.map_eq_some'] at h'
        obtain ⟨m, hm, _⟩ := h'
        have hall : ∀ et ∈ l2, ∃ c, closure w2 n et = some c := by
          intro et het
          obtain ⟨c, hc⟩ := closureFold_some_mem w l _ _ hm et (hperm.mem_iff.mpr het)
          exact ⟨c, ih et c hc⟩
        obtain ⟨r, hr⟩ := closureFold_total w2 l2 hall emptyMap
        exact ⟨some r, by rw [closure_succ, e2]; simp [hr]⟩
    obtain ⟨v2, hv2⟩ := hdef
    rw [hv2, closure_value_perm w w2 hp hid h hv2]


theorem reachesRefl_perm (w w2 : World) (hp : EmbedsPermuted w w2) (p q : Ptr) :
    ReachesRefl w2 p q ↔ ReachesRefl w p q := by
  constructor
  · intro h
    exact Relation.ReflTransGen.mono (fun a b hab => (directEmbed_perm w w2 hp a b).mp hab) h
  · intro h
    exact Relation.ReflTransGen.mono (fun a b hab => (directEmbed_perm w w2 hp a b).mpr hab) h

theorem canon_perm (w w2 : World) (hp : EmbedsPermuted w w2) (hid : DistinctIDs w)
    {st : Store} (hc : Canon w st) : Canon w2 st := by
  intro q
  rcases hc q with h | ⟨k, hk⟩
  · exact Or.inl h
  · exact Or.inr ⟨k, closure_perm w w2 hp hid k q _ hk⟩

theorem lookupEmbed_perm (w w2 : World) (hp : EmbedsPermuted w w2) (m : EmbedMap)
    (tp x : Ptr) : lookupEmbed w2 m tp x = lookupEmbed w m tp x := by
  simp only [lookupEmbed, (hp.2.2.2.2 x).2.1]

/-- C19: when no embed cycle lies below `tp` and the registered types have pairwise
distinct IDs, in a store the code has produced: for a registry that differs only by
a permutation of the entries of `Embeds`, in any of its types, `CompileEmbeds` on
`tp` completes at every sufficient recursion depth with the same store, so with the
same closure for `tp` and for every other type, and every `HasEmbed(tp, x)` has the
same result. -/
theorem compileEmbeds_order_independent (w w2 : World) (st : Store) (tp : Ptr)
    (hac : AcyclicFrom w tp) (hid : DistinctIDs w) (hp : EmbedsPermuted w w2)
    (hst : Computed w st) :
    ∃ n, ∀ m, n ≤ m → ∃ st2, CompileEmbeds w m st tp = some st2 ∧
      CompileEmbeds w2 m st tp = some st2 ∧
      ∀ x, HasEmbed w2 m st tp x = HasEmbed w m st tp x := by
  have hc := computed_canon w hst
  have hc2 := canon_perm w w2 hp hid hc
  obtain ⟨n, v, hv⟩ := closure_of_acyclic w tp hac
  refine ⟨n, fun m hm => ?_⟩
  have hvm := closure_mono_le w hm tp v hv
  have hvm2 := closure_perm w w2 hp hid m tp v hvm
  obtain ⟨s1, h1, _⟩ := compileEmbeds_total w hc hvm
  obtain ⟨s2, h2, _⟩ := compileEmbeds_total w2 hc2 hvm2
  obtain ⟨_, hf1, _⟩ := compileEmbeds_spec w hc h1
  obtain ⟨_, hf2, _⟩ := compileEmbeds_spec w2 hc2 h2
  have heq : s2 = s1 := by
    funext q
    by_cases hr : ReachesRefl w tp q
    · obtain ⟨k1, hk1⟩ := hf1.2 q hr
      obtain ⟨k2, hk2⟩ := hf2.2 q ((reachesRefl_perm w w2 hp tp q).mpr hr)
      exact closure_value_perm w w2 hp hid hk1 hk2
    · have e1 : s1 q = st q := by
        rcases hf1.1 q with h | h
        · exact h
        · exact absurd h hr
      have e2 : s2 q = st q := by
        rcases hf2.1 q with h | h
        · exact h
        · exact absurd ((reachesRefl_perm w w2 hp tp q).mp h) hr
      rw [e1, e2]
  subst heq
  refine ⟨s2, h1, h2, fun x => ?_⟩
  unfold HasEmbed
  cases hs : st tp with
  | some cm => simp only [lookupEmbed_perm w w2 hp]
  | none =>
    simp only [h1, h2]
    cases s2 tp with
    | none => rfl
    | some cm => simp only [lookupEmbed_perm w w2 hp]

theorem exTypeByName_range (nm : String) (p : Ptr) (h : exTypeByName nm = some p) :
    p = 0 ∨ p = 1 ∨ p = 2 ∨ p = 3 := by
  unfold exTypeByName at h
  split_ifs at h <;> simp only [Option.some.injEq, reduceCtorEq] at h <;> subst h <;> simp

theorem fork_targets (p : Ptr) (l : List Ptr) (h : embedTargets forkWorld p = some l) :
    (p = 0 ∧ l = [1, 2]) ∨ (p = 1 ∧ l = [3]) := by
  match p with
  | 0 =>
    have h0 : embedTargets forkWorld 0 = some [1, 2] := by decide
    rw [h0] at h
    exact Or.inl ⟨rfl, (Option.some.inj h).symm⟩
  | 1 =>
    have h0 : embedTargets forkWorld 1 = some [3] := by decide
    rw [h0] at h
    exact Or.inr ⟨rfl, (Option.some.inj h).symm⟩
  | 2 =>
    have h0 : embedTargets forkWorld 2 = none := by decide
    rw [h0] at h
    cases h
  | 3 =>
    have h0 : embedTargets forkWorld 3 = none := by decide
    rw [h0] at h
    cases h
  | p + 4 =>
    have h0 : embedTargets forkWorld (p + 4) = none := rfl
    rw [h0] at h
    cases h

theorem fork_acyclic (a : Ptr) : AcyclicFrom forkWorld a := by
  refine ⟨fun p => 4 - p, ?_⟩
  rintro p q _ ⟨l, hl, hq⟩
  rcases fork_targets p l hl with ⟨rfl, rfl⟩ | ⟨rfl, rfl⟩
  · simp only [List.mem_cons, List.mem_singleton, List.not_mem_nil, or_false] at hq
    rcases hq with rfl | rfl <;> decide
  · simp only [List.mem_singleton] at hq
    subst hq
    decide

theorem fork_distinctIDs : DistinctIDs forkWorld := by
  intro p q n1 n2 h1 h2 h3
  have hp := exTypeByName_range n1 p h1
  have hq := exTypeByName_range n2 q h2
  rcases hp with rfl | rfl | rfl | rfl <;> rcases hq with rfl | rfl | rfl | rfl <;>
    first | rfl | exact absurd h3 (by decide)

theorem fork_permuted : EmbedsPermuted forkWorld forkWorldSwapped := by
  refine ⟨rfl, rfl, rfl, rfl, ?_⟩
  intro p
  match p with
  | 0 =>
    exact ⟨rfl, rfl, rfl, Or.inr ⟨_, _, rfl, rfl, List.Perm.swap _ _ _⟩⟩
  | 1 => exact ⟨rfl, rfl, rfl, Or.inr ⟨_, _, rfl, rfl, List.Perm.refl _⟩⟩
  | 2 => exact ⟨rfl, rfl, rfl, Or.inl ⟨rfl, rfl⟩⟩
  | 3 => exact ⟨rfl, rfl, rfl, Or.inl ⟨rfl, rfl⟩⟩
  | p + 4 => exact ⟨rfl, rfl, rfl, Or.inl ⟨rfl, rfl⟩⟩

/-- C19, witness: `A` embeds `B` and `C`; with the two embeds swapped `CompileEmbeds`
on `A` leaves the same store, and `HasEmbed(A, x)` has the same results. -/
theorem compileEmbeds_order_independent_witness :
    (forkWorld.Types 0).Embeds = some ⟨[exEmbed "B", exEmbed "C"]⟩ ∧
    (forkWorldSwapped.Types 0).Embeds = some ⟨[exEmbed "C", exEmbed "B"]⟩ ∧
    ∃ n, ∀ m, n ≤ m → ∃ st2, CompileEmbeds forkWorld m freshStore 0 = some st2 ∧
      CompileEmbeds forkWorldSwapped m freshStore 0 = some st2 ∧
      ∀ x, HasEmbed forkWorldSwapped m freshStore 0 x = HasEmbed forkWorld m freshStore 0 x :=
  ⟨rfl, rfl, compileEmbeds_order_independent forkWorld forkWorldSwapped freshStore 0
    (fork_acyclic 0) fork_distinctIDs fork_permuted Computed.fresh⟩


/-! ## C15: the generated setters -/

/-- The template applied to `Person` gives the seven setters of the test data. -/
theorem setterMethods_person :
    SetterMethods exEsc (ToCamel exAcr) "Person" personType = some [
      ⟨"Person", "SetName", "string", "Name"⟩,
      ⟨"Person", "SetAge", "int", "Age"⟩,
      ⟨"Person", "SetType", "*gti.Type", "Type"⟩,
      ⟨"Person", "SetR", "uint8", "R"⟩,
      ⟨"Person", "SetG", "uint8", "G"⟩,
      ⟨"Person", "SetB", "uint8", "B"⟩,
      ⟨"Person", "SetA", "uint8", "A"⟩] := by
  decide

/-- C15: each of the seven setters of `Person` returns its receiver, sets the field
it is named after to the value given, and leaves the other fields of the receiver
and every other `Person` as they are; and the method that the template writes for a
field assigns the field under its own name, also when the tag renames the setter:
for the field `label` tagged `set:"myTitle"` the method `SetmyTitle` assigns
`label`. -/
theorem setters_assign_their_field (h : PersonHeap) (t : Ptr) (s : String) (i : Int)
    (y : Option Ptr) (v : Nat) :
    ((SetName h t s).2 = t ∧ (SetName h t s).1 t = { h t with Name := s } ∧
      ((SetName h t s).1 t).Name = s ∧ ∀ p, p ≠ t → (SetName h t s).1 p = h p) ∧
    ((SetAge h t i).2 = t ∧ (SetAge h t i).1 t = { h t with Age := i } ∧
      ((SetAge h t i).1 t).Age = i ∧ ∀ p, p ≠ t → (SetAge h t i).1 p = h p) ∧
    ((SetType h t y).2 = t ∧ (SetType h t y).1 t = { h t with Typ := y } ∧
      ((SetType h t y).1 t).Typ = y ∧ ∀ p, p ≠ t → (SetType h t y).1 p = h p) ∧
    ((SetR h t v).2 = t ∧ (SetR h t v).1 t = { h t with R := v } ∧
      ((SetR h t v).1 t).R = v ∧ ∀ p, p ≠ t → (SetR h t v).1 p = h p) ∧
    ((SetG h t v).2 = t ∧ (SetG h t v).1 t = { h t with G := v } ∧
      ((SetG h t v).1 t).G = v ∧ ∀ p, p ≠ t → (SetG h t v).1 p = h p) ∧
    ((SetB h t v).2 = t ∧ (SetB h t v).1 t = { h t with B := v } ∧
      ((SetB h t v).1 t).B = v ∧ ∀ p, p ≠ t → (SetB h t v).1 p = h p) ∧
    ((SetA h t v).2 = t ∧ (SetA h t v).1 t = { h t with A := v } ∧
      ((SetA h t v).1 t).A = v ∧ ∀ p, p ≠ t → (SetA h t v).1 p = h p) ∧
    (∀ (esc : List Char → Option (List Char)) (camel : String → String)
        (typName : String) (f : Field),
      (renderSetter esc camel typName f).Assigned = f.Name ∧
      (renderSetter esc camel typName f).Method = "Set" ++ SetterName esc camel f) ∧
    renderSetter exEsc (ToCamel exAcr) "Form" ⟨"label", "string", "", "set:\"myTitle\""⟩
      = ⟨"Form", "SetmyTitle", "string", "label"⟩ := by
  refine ⟨?_, ?_, ?_, ?_, ?_, ?_, ?_, fun _ _ _ _ => ⟨rfl, rfl⟩, by decide⟩ <;>
    refine ⟨rfl, by simp [SetName, SetAge, SetType, SetR, SetG, SetB, SetA],
      by simp [SetName, SetAge, SetType, SetR, SetG, SetB, SetA], ?_⟩ <;>
    intro p hp <;>
    simp [SetName, SetAge, SetType, SetR, SetG, SetB, SetA, hp]

/-! ## C13, C14: the registry -/

theorem findRecord_none_iff (p : TypeRec → Bool) :
    ∀ (l : List TypeRec) (i : Nat), findRecord p l i = none ↔ l.any p = false := by
  intro l
  induction l with
  | nil => intro i; simp [findRecord]
  | cons r rs ih =>
    intro i
    cases hp : p r with
    | true => simp [findRecord, hp]
    | false => simpa [findRecord, hp] using ih (i + 1)

theorem findRecord_append_some (p : TypeRec → Bool) (l2 : List TypeRec) :
    ∀ (l : List TypeRec) (i k : Nat), findRecord p l i = some k →
      findRecord p (l ++ l2) i = some k := by
  intro l
  induction l with
  | nil => intro i k h; simp [findRecord] at h
  | cons r rs ih =>
    intro i k h
    cases hp : p r with
    | true => simpa [findRecord, hp] using h
    | false =>
      simp only [findRecord, hp] at h
      simpa [findRecord, hp] using ih (i + 1) k h

theorem findRecord_append_none (p : TypeRec → Bool) (l2 : List TypeRec) :
    ∀ (l : List TypeRec) (i : Nat), findRecord p l i = none →
      findRecord p (l ++ l2) i = findRecord p l2 (i + l.length) := by
  intro l
  induction l with
  | nil => intro i _; simp
  | cons r rs ih =>
    intro i h
    cases hp : p r with
    | true => simp [findRecord, hp] at h
    | false =>
      have h2 : findRecord p rs (i + 1) = none := by simpa [findRecord, hp] using h
      have := ih (i + 1) h2
      have e : i + (r :: rs).length = i + 1 + rs.length := by
        simp only [List.length_cons]
        omega
      rw [e, ← this]
      simp [findRecord, hp]

theorem findRecord_lt (p : TypeRec → Bool) :
    ∀ (l : List TypeRec) (i k : Nat), findRecord p l i = some k →
      i ≤ k ∧ k < i + l.length := by
  intro l
  induction l with
  | nil => intro i k h; simp [findRecord] at h
  | cons r rs ih =>
    intro i k h
    cases hp : p r with
    | true =>
      simp only [findRecord, hp, if_true, Option.some.injEq] at h
      subst h
      simp
    | false =>
      simp only [findRecord, hp] at h
      have := ih (i + 1) k h
      simp only [List.length_cons]
      omega

/-- Registering appends to the stored records or leaves them as they are. -/
theorem addType_records (reg : Registry) (t : TypeRec) :
    ∃ extra, (reg.AddType t).1.records = reg.records ++ extra := by
  unfold Registry.AddType
  split
  · exact ⟨[], by simp⟩
  · exact ⟨[{ t with ID := reg.nextID }], rfl⟩

theorem addAll_records : ∀ (ts : List TypeRec) (reg : Registry),
    ∃ extra, (reg.addAll ts).records = reg.records ++ extra := by
  intro ts
  induction ts with
  | nil => intro reg; exact ⟨[], by simp [Registry.addAll]⟩
  | cons t ts ih =>
    intro reg
    obtain ⟨e1, h1⟩ := addType_records reg t
    obtain ⟨e2, h2⟩ := ih (reg.AddType t).1
    refine ⟨e1 ++ e2, ?_⟩
    have : reg.addAll (t :: ts) = (reg.AddType t).1.addAll ts := rfl
    rw [this, h2, h1, List.append_assoc]

/-- C13, counterexample: a record is stored under another name with an instance of
the concrete type of `Person`; then `AddType` stores the record of `Person` and
returns the handle 1, `TypeByName` of its name returns 1, and `TypeByValue` of a live
value of the concrete type of its instance returns the handle 0, the earlier
record. -/
theorem typeByValue_finds_earlier_record :
    ((⟨[], 1⟩ : Registry).addAll [aliasRec]).AddType personRec
      = (⟨[{ aliasRec with ID := 1 }, { personRec with ID := 2 }], 3⟩, Except.ok 1) ∧
    personRec.Instance = some 7 ∧ exTypeOf 8 = exTypeOf 7 ∧
    ((((⟨[], 1⟩ : Registry).addAll [aliasRec]).AddType personRec).1).TypeByName
      personRec.Name = some 1 ∧
    ((((⟨[], 1⟩ : Registry).addAll [aliasRec]).AddType personRec).1).TypeByValue
      exTypeOf 7 = some 0 ∧
    ((((⟨[], 1⟩ : Registry).addAll [aliasRec]).AddType personRec).1).TypeByValue
      exTypeOf 8 = some 0 :=
  ⟨rfl, rfl, by decide, by decide, by decide, by decide⟩

/-- C13, amended: when `AddType` stores the record `t` and returns its handle, then
at once and after any further registrations the handle leads to the record stored
(`t` with its numeric ID), `TypeByName` of the name of `t` returns that handle, and
so does `TypeByValue` of every live value with the concrete type of the instance of
`t`, provided that no record stored before `t` has an instance of that concrete
type. -/
theorem registry_lookup_undoes_addType (typeOf : Nat → RType) (reg reg2 : Registry)
    (t : TypeRec) (p : Ptr) (h : reg.AddType t = (reg2, Except.ok p)) :
    ∀ more : List TypeRec,
      (reg2.addAll more).records[p]? = some { t with ID := reg.nextID } ∧
      (reg2.addAll more).TypeByName t.Name = some p ∧
      ∀ i v, t.Instance = some i → typeOf v = typeOf i →
        (∀ r ∈ reg.records, ∀ j, r.Instance = some j → typeOf j ≠ typeOf i) →
        (reg2.addAll more).TypeByValue typeOf v = some p := by
  intro more
  unfold Registry.AddType at h
  split at h
  · simp at h
  · next hany =>
    simp only [Prod.mk.injEq, Except.ok.injEq] at h
    obtain ⟨h2, hp⟩ := h
    subst h2
    subst hp
    obtain ⟨extra, hx⟩ := addAll_records more
      { records := reg.records ++ [{ t with ID := reg.nextID }], nextID := reg.nextID + 1 }
    simp only at hx
    have hany2 : reg.records.any (fun r => decide (r.Name = t.Name)) = false := by
      simpa using hany
    refine ⟨?_, ?_, ?_⟩
    · rw [hx, List.append_assoc, List.getElem?_append_right (Nat.le_refl _)]
      simp
    · unfold Registry.TypeByName
      rw [hx, List.append_assoc,
        findRecord_append_none _ _ _ _ ((findRecord_none_iff _ _ _).mpr hany2)]
      simp [findRecord]
    · intro i v hi hv hfree
      unfold Registry.TypeByValue
      have hnone : findRecord
          (fun r => match r.Instance with
            | some i => decide (typeOf i = typeOf v)
            | none => false) reg.records 0 = none := by
        rw [findRecord_none_iff, List.any_eq_false]
        intro r hr
        cases hj : r.Instance with
        | none => simp
        | some j =>
          have := hfree r hr j hj
          simp [hv, this]
      rw [hx, List.append_assoc, findRecord_append_none _ _ _ _ hnone]
      simp [findRecord, hi, hv]

/-- C14: when a record is stored under the name of `t2`, `AddType(t2)` is rejected
with `DuplicateRegistration` and returns the registry as it was; after that and any
further registrations `TypeByName` of the name still returns the handle of the
first registration, and the record behind it, its numeric ID included, is as it
was. -/
theorem registry_rejects_duplicate (reg : Registry) (t2 : TypeRec) (p : Ptr)
    (h : reg.TypeByName t2.Name = some p) :
    reg.AddType t2 = (reg, Except.error RegError.DuplicateRegistration) ∧
    ∀ more : List TypeRec,
      (reg.addAll (t2 :: more)).TypeByName t2.Name = some p ∧
      (∃ r, reg.records[p]? = some r ∧ (reg.addAll (t2 :: more)).records[p]? = some r) := by
  have hany : reg.records.any (fun r => decide (r.Name = t2.Name)) = true := by
    cases ha : reg.records.any (fun r => decide (r.Name = t2.Name)) with
    | true => rfl
    | false =>
      have := (findRecord_none_iff _ reg.records 0).mpr ha
      unfold Registry.TypeByName at h
      rw [this] at h
      cases h
  have hadd : reg.AddType t2 = (reg, Except.error RegError.DuplicateRegistration) := by
    simp only [Registry.AddType, hany, if_true]
  refine ⟨hadd, fun more => ?_⟩
  obtain ⟨extra, hx⟩ := addAll_records (t2 :: more) reg
  have hlt := (findRecord_lt _ _ _ _ h).2
  simp only [Nat.zero_add] at hlt
  refine ⟨?_, ?_⟩
  · unfold Registry.TypeByName
    rw [hx]
    exact findRecord_append_some _ _ _ _ _ h
  · refine ⟨reg.records[p], by simp [hlt], ?_⟩
    rw [hx, List.getElem?_append_left hlt]
    simp [hlt]


/-- C13, witness: the record of `Person` registered after a record with an instance
of another concrete type; its name and a live value of the concrete type of its
instance lead back to its handle, whatever is registered afterwards. -/
theorem registry_lookup_undoes_addType_witness :
    (((⟨[], 1⟩ : Registry).addAll [otherRec]).AddType personRec).2 = Except.ok 1 ∧
    ∀ more : List TypeRec,
      (((((⟨[], 1⟩ : Registry).addAll [otherRec]).AddType personRec).1).addAll more).TypeByName
          "goki.dev/gti/gtigen/testdata.Person" = some 1 ∧
      (((((⟨[], 1⟩ : Registry).addAll [otherRec]).AddType personRec).1).addAll more).TypeByValue
          exTypeOf 8 = some 1 :=
  ⟨rfl, fun more =>
    ⟨(registry_lookup_undoes_addType exTypeOf ((⟨[], 1⟩ : Registry).addAll [otherRec]) _
        personRec 1 rfl more).2.1,
      (registry_lookup_undoes_addType exTypeOf ((⟨[], 1⟩ : Registry).addAll [otherRec]) _
        personRec 1 rfl more).2.2 7 8 rfl (by decide) (by
          intro r hr j hj
          have hrec : ((⟨[], 1⟩ : Registry).addAll [otherRec]).records
              = [{ otherRec with ID := 1 }] := rfl
          rw [hrec, List.mem_singleton] at hr
          subst hr
          have hj2 : j = 9 := by
            simpa [otherRec] using hj.symm
          subst hj2
          decide)⟩⟩

/-- C14, witness: a second record under the name of `Person` is rejected, and the
name still leads to the first record, with the ID 1. -/
theorem registry_rejects_duplicate_witness :
    ((⟨[], 1⟩ : Registry).addAll [personRec]).AddType personRec2
      = ((⟨[], 1⟩ : Registry).addAll [personRec],
          Except.error RegError.DuplicateRegistration) ∧
    ∀ more : List TypeRec,
      (((⟨[], 1⟩ : Registry).addAll [personRec]).addAll (personRec2 :: more)).TypeByName
          "goki.dev/gti/gtigen/testdata.Person" = some 0 ∧
      (∃ r, ((⟨[], 1⟩ : Registry).addAll [personRec]).records[0]? = some r ∧
        (((⟨[], 1⟩ : Registry).addAll [personRec]).addAll (personRec2 :: more)).records[0]?
          = some r) :=
  registry_rejects_duplicate ((⟨[], 1⟩ : Registry).addAll [personRec]) personRec2 0
    (by decide)

/-- The registrations of the examples evaluated: the duplicate leaves no trace, the
record of `Person` keeps the ID 1 and the next record gets the ID 2. -/
theorem registry_example :
    (⟨[], 1⟩ : Registry).addAll [personRec, personRec2, otherRec]
      = ⟨[{ personRec with ID := 1 }, { otherRec with ID := 2 }], 3⟩ := by
  decide

/-- In a registry filled from an empty one, the record with the handle `i` has the
ID `first + i`: no numeric ID is given twice. -/
theorem registry_ids_by_handle (first : Nat) :
    ∀ (ts : List TypeRec) (reg : Registry),
      reg.nextID = first + reg.records.length →
      (∀ i r, reg.records[i]? = some r → r.ID = first + i) →
      (reg.addAll ts).nextID = first + (reg.addAll ts).records.length ∧
      ∀ i r, (reg.addAll ts).records[i]? = some r → r.ID = first + i := by
  intro ts
  induction ts with
  | nil => intro reg h1 h2; exact ⟨h1, h2⟩
  | cons t ts ih =>
    intro reg h1 h2
    have hstep : reg.addAll (t :: ts) = (reg.AddType t).1.addAll ts := rfl
    rw [hstep]
    apply ih
    · unfold Registry.AddType
      split
      · exact h1
      · simp only [List.length_append, List.length_singleton]
        omega
    · intro i r hr
      unfold Registry.AddType at hr
      split at hr
      · exact h2 i r hr
      · simp only at hr
        by_cases hi : i < reg.records.length
        · rw [List.getElem?_append_left hi] at hr
          exact h2 i r hr
        · have hge : reg.records.length ≤ i := Nat.le_of_not_lt hi
          rw [List.getElem?_append_right hge] at hr
          have hz : i - reg.records.length = 0 := by
            by_contra hne
            have : 1 ≤ i - reg.records.length := Nat.one_le_iff_ne_zero.mpr hne
            rw [List.getElem?_eq_none (by simpa using this)] at hr
            cases hr
          rw [hz] at hr
          simp only [List.getElem?_cons_zero, Option.some.injEq] at hr
          rw [← hr]
          simp only
          omega

end Gti
